import Mathlib

/-!
Shallow embedding of the heatwave detection / metrics pipeline
(`src/hw_detect_inmet.py`, `src/hw_detect_ouzeau.py`, `src/events_utils.py`,
`src/events_metrics.py`).

Modelling conventions:
* Temperatures are rationals (`ℚ`); the source compares and maxes floats,
  and every claim under study concerns only order/max/sum, which ℚ models
  exactly.
* Timestamps: day-level series are indexed by integer day numbers; where a
  sub-daily resolution matters (`flags_from_events`,
  `expand_event_metrics_to_timeseries`) a timestamp is an integer count of
  hours, and `pandas` `dt.normalize()` is integer division by 24 (all
  concrete instances use non-negative timestamps, where `Int` division
  agrees with flooring).
* A pandas `DataFrame` is a list of typed rows; a `Series` lookup by index
  label is a first-match search over (key, value) pairs; a left merge emits,
  for each left row, one output row per matching right row, or a single
  row with missing values when there is no match.
* Python exceptions are `Except String`.
-/

namespace HW

/-! ## `flags_from_events` (src/events_utils.py, lines 90-106)

The source filters `events` by `method`, then for each remaining event ORs
into the output column the mask `start <= timeset <= end` over the raw
(tz-stripped) timestamps.  Timestamps are modelled as hour counts. -/

structure FEvent where
  start : Int
  end_ : Int
  method : String
deriving DecidableEq, Repr

def flags_from_events (events : List FEvent) (timeline : List Int)
    (method : String) : List (Int × Bool) :=
  let evm := events.filter (fun e => e.method == method)
  timeline.map (fun t =>
    (t, evm.any (fun e => decide (e.start ≤ t) && decide (t ≤ e.end_))))

/-- Embedding of `dt.normalize()` on an hour-count timestamp: its calendar day. -/
def dayOf (t : Int) : Int := t / 24

/-! ## Method A detector (src/hw_detect_inmet.py)

A row of the daily-maxima frame after the month merge.  `monthOf` embeds
`timeset.dt.month` (the calendar), `normals` the month-indexed normals
table (`how="left"`, so a month can be absent), `delta` the offset.
`hit = tmax_c >= normal + delta`; a missing normal makes the comparison
False, exactly as a NaN does in pandas. -/

structure ARow where
  day : Nat
  tmax : ℚ
deriving DecidableEq, Repr

def inmetHit (monthOf : Nat → Nat) (normals : Nat → Option ℚ) (delta : ℚ)
    (r : ARow) : Bool :=
  match normals (monthOf r.day) with
  | some nv => decide (nv + delta ≤ r.tmax)
  | none => false

/-- Maximal row-consecutive blocks of `hit = True` rows: the embedding of
`grp = (hit != hit.shift()).cumsum(); run_id = grp.where(hit)` followed by
`groupby(run_id)`.  The pandas trick groups by *row adjacency only*; there
is no day-gap test in the source.  `fuel` makes the recursion structural;
callers pass `fuel = rows.length`. -/
def hitRunsF (hit : ARow → Bool) : Nat → List ARow → List (List ARow)
  | 0, _ => []
  | _ + 1, [] => []
  | fuel + 1, r :: rest =>
    if hit r then
      (r :: rest.takeWhile hit) :: hitRunsF hit fuel (rest.dropWhile hit)
    else
      hitRunsF hit fuel rest

structure AEvent where
  start : Nat
  end_ : Nat
  duration : Nat
  peak : ℚ
deriving DecidableEq, Repr

/-- One run's `agg(start=min timeset, end=max timeset, duration_d=nunique timeset,
peak=max tmax)` over one run. -/
def mkAEvent : List ARow → Option AEvent
  | [] => none
  | r :: rs =>
    some
      { start := rs.foldl (fun a x => min a x.day) r.day
        end_ := rs.foldl (fun a x => max a x.day) r.day
        duration := ((r :: rs).map (fun x => x.day)).dedup.length
        peak := rs.foldl (fun a x => max a x.tmax) r.tmax }

/-- Embedding of `detect_inmet_events`: events are runs with `duration_d >= 2`; the
returned flag series is the raw `hit` column
(`df[["timeset","hit"]]`). -/
def detect_inmet_events (monthOf : Nat → Nat) (normals : Nat → Option ℚ)
    (delta : ℚ) (rows : List ARow) : List AEvent × List (Nat × Bool) :=
  let hit := inmetHit monthOf normals delta
  let runs := hitRunsF hit rows.length rows
  let evs := (runs.filterMap mkAEvent).filter (fun e => decide (2 ≤ e.duration))
  (evs, rows.map (fun r => (r.day, hit r)))

/-! ## Method B detector (src/hw_detect_ouzeau.py)

`detect_ouzeau_events` over a daily-mean series.  The series is modelled
by its list of values; day `k` of the series is index `k` (the source's
`timeset` column on a gap-free daily input).  Thresholds: `sdeb` (entry),
`sint` (hard-exit), `spic` (peak qualification); `n_consecutive` days
below `sdeb` also end an event. The flag series returned alongside the
events is not involved in any claim and is omitted. -/

structure OEvent where
  start : Nat
  end_ : Nat
  duration : Nat
  peak : ℚ
deriving DecidableEq, Repr

/-- The inner `while j + 1 < len(d)` loop: `j` is the index of the last
examined day, `maxT` the running peak, `consec` the consecutive-below-
`sdeb` counter, and the list argument the values after day `j`.  Returns
(end index, running peak, values after the end index). -/
def innerScanL (sint sdeb : ℚ) (ncons : Nat) :
    Nat → ℚ → Nat → List ℚ → Nat × ℚ × List ℚ
  | j, maxT, _, [] => (j, maxT, [])
  | j, maxT, consec, v :: rest =>
    let m := max maxT v
    if v < sint then (j + 1, m, rest)
    else if v < sdeb then
      if ncons ≤ consec + 1 then (j + 1, m, rest)
      else innerScanL sint sdeb ncons (j + 1) m (consec + 1) rest
    else innerScanL sint sdeb ncons (j + 1) m 0 rest

/-- The outer scan (`while i < len(d)`), fuel-structured; `i` is the
absolute index of the first value of the list argument.  A candidate
opens where `value > sdeb`; it is emitted only when its running peak
reaches `spic`; the scan resumes after the candidate's end either way. -/
def ouzeauScan (sdeb sint spic : ℚ) (ncons : Nat) :
    Nat → Nat → List ℚ → List OEvent
  | 0, _, _ => []
  | _ + 1, _, [] => []
  | fuel + 1, i, v :: rest =>
    if sdeb < v then
      if spic ≤ (innerScanL sint sdeb ncons i v 0 rest).2.1 then
        ⟨i, (innerScanL sint sdeb ncons i v 0 rest).1,
          (innerScanL sint sdeb ncons i v 0 rest).1 - i + 1,
          (innerScanL sint sdeb ncons i v 0 rest).2.1⟩ ::
        ouzeauScan sdeb sint spic ncons fuel
          ((innerScanL sint sdeb ncons i v 0 rest).1 + 1)
          (innerScanL sint sdeb ncons i v 0 rest).2.2
      else
        ouzeauScan sdeb sint spic ncons fuel
          ((innerScanL sint sdeb ncons i v 0 rest).1 + 1)
          (innerScanL sint sdeb ncons i v 0 rest).2.2
    else ouzeauScan sdeb sint spic ncons fuel (i + 1) rest

def detect_ouzeau_events (sdeb sint spic : ℚ) (ncons : Nat)
    (vals : List ℚ) : List OEvent :=
  ouzeauScan sdeb sint spic ncons vals.length 0 vals

/-- Length of the trailing run of days with value `< sdeb` ending at day
`k`, counting only days strictly after the candidate's start `s`: the
state of the source's `consec_below_sdeb` counter after examining day
`k`. -/
def belowRun (sdeb : ℚ) (vals : List ℚ) (s : Nat) : Nat → Nat
  | 0 => 0
  | k + 1 =>
    if k + 1 ≤ s then 0
    else if vals.getD (k + 1) 0 < sdeb then belowRun sdeb vals s k + 1
    else 0

/-- The end condition of a Method B candidate opened at day `s`, examined
at day `k`: the day's value is below the hard-exit threshold `sint`, or
`n_consecutive` accumulated days below `sdeb` have been reached. -/
def endCondB (sint sdeb : ℚ) (ncons : Nat) (vals : List ℚ)
    (s k : Nat) : Prop :=
  vals.getD k 0 < sint ∨ ncons ≤ belowRun sdeb vals s k

/-! ## Event metrics engine (src/events_metrics.py)

Daily series are lists of (day number, value) pairs (post-`dropna`, so
every stored value is an observation); a `Series` indexed lookup is a
first-match search.  `normals_m` is a column-name list plus a
month-indexed lookup, so the source's normal-column detection over
`candidates` is representable.  The `Thresholds` dataclass and the method
dispatch of `compute_event_metrics` (lines 110-119) are mirrored exactly:
only "INMET" and "Ouzeau" are known method tags. -/

def candidateCols : List String :=
  ["tmax_norm", "normal_tmax_c", "tmax_mean", "tmax_clim", "tmax"]

structure NormalsM where
  cols : List String
  norm : Nat → Option ℚ

structure Thresholds where
  method : String
  normals_m : Option NormalsM
  delta_c : ℚ
  sdeb_c : Option ℚ

structure MEvent where
  start : Int
  end_ : Int
deriving DecidableEq, Repr

structure MetricsRow where
  start : Int
  end_ : Int
  duration : Int
  intensity : ℚ
  severity : ℚ
deriving DecidableEq, Repr

/-- Embedding of `pd.date_range(s, e, freq="D")` on day numbers. -/
def daysRange (s e : Int) : List Int :=
  (List.range (e + 1 - s).toNat).map (fun (k : Nat) => s + (k : Int))

/-- Indexed lookup on a daily series (`.reindex` hit or miss). -/
def seriesLookup (l : List (Int × ℚ)) (d : Int) : Option ℚ :=
  (l.find? (fun p => p.1 == d)).map (fun p => p.2)

/-- Embedding of `_daily_excess_inmet`: per-day `max(tmax - (normal + delta), 0)`; a
month missing from the normals lookup gives a missing (`NaN`) excess.
Fails when no recognizable normal column is present. -/
def dailyExcessInmet (monthOf : Int → Nat) (daily_tmax : List (Int × ℚ))
    (nm : NormalsM) (delta : ℚ) : Except String (List (Int × Option ℚ)) :=
  if candidateCols.any (fun c => nm.cols.contains c) then
    Except.ok (daily_tmax.map (fun p =>
      (p.1, (nm.norm (monthOf p.1)).map (fun nv => max (p.2 - (nv + delta)) 0))))
  else
    Except.error "normals_m precisa ter month e uma das colunas candidatas"

/-- Embedding of `_daily_excess_ouzeau`: per-day `max(tmean - sdeb, 0)` from the single
scalar threshold. -/
def dailyExcessOuzeau (daily_tmean : List (Int × ℚ)) (sdeb : ℚ) :
    List (Int × Option ℚ) :=
  daily_tmean.map (fun p => (p.1, some (max (p.2 - sdeb) 0)))

/-- Embedding of `reindex(days)["excess_c"].fillna(0)` at one day: a missing day or a
missing excess contributes 0. -/
def excessLookup (dex : List (Int × Option ℚ)) (d : Int) : ℚ :=
  match dex.find? (fun p => p.1 == d) with
  | some p => p.2.getD 0
  | none => 0

/-- Embedding of `intensity_c`: max of the observed daily maxima over the event span,
NaN-skipping, with the explicit `0.0` fallback when no day has data. -/
def intensityOf (daily_tmax : List (Int × ℚ)) (s e : Int) : ℚ :=
  match (daysRange s e).filterMap (seriesLookup daily_tmax) with
  | [] => 0
  | v :: vs => vs.foldl max v

/-- Embedding of `severity_cday`: sum of the daily excesses over the event span. -/
def severityOf (dex : List (Int × Option ℚ)) (s e : Int) : ℚ :=
  ((daysRange s e).map (excessLookup dex)).sum

/-- The method dispatch of `compute_event_metrics` (lines 110-119): it
accepts exactly "INMET" (requiring `normals_m`) and "Ouzeau" (requiring
`sdeb_c`) and fails with a validation error on any other tag. -/
def methodExcess (monthOf : Int → Nat)
    (daily_tmean daily_tmax : List (Int × ℚ)) (thr : Thresholds) :
    Except String (List (Int × Option ℚ)) :=
  if thr.method = "INMET" then
    match thr.normals_m with
    | none => Except.error "Para INMET, forneça normals_m"
    | some nm => dailyExcessInmet monthOf daily_tmax nm thr.delta_c
  else if thr.method = "Ouzeau" then
    match thr.sdeb_c with
    | none => Except.error "Para Ouzeau, forneça sdeb_c"
    | some sdeb => Except.ok (dailyExcessOuzeau daily_tmean sdeb)
  else
    Except.error ("Método desconhecido: " ++ thr.method)

/-- Embedding of `compute_event_metrics`: duration from the (normalized) span,
intensity from `daily_tmax`, severity from the method's daily-excess
table. -/
def compute_event_metrics (monthOf : Int → Nat) (events : List MEvent)
    (daily_tmean daily_tmax : List (Int × ℚ)) (thr : Thresholds) :
    Except String (List MetricsRow) :=
  (methodExcess monthOf daily_tmean daily_tmax thr).map
  (fun dex => events.map (fun ev =>
    { start := ev.start, end_ := ev.end_,
      duration := ev.end_ - ev.start + 1,
      intensity := intensityOf daily_tmax ev.start ev.end_,
      severity := severityOf dex ev.start ev.end_ }))

/-! ## Timeline projector (src/events_metrics.py, lines 129-171)

`expand_event_metrics_to_timeseries`.  A timestamp is a pair
(calendar day, time-of-day); `dt.normalize()` keeps the day component.
The mapper table is one row per (event, covered day); the pandas left
merge keyed on the day emits, for each timeline row, one output row per
matching mapper row — or a single row with missing values when no mapper
row matches.  The method-prefixed column group is modelled as an
`Option` record (`none` = the all-NaN columns of an unmatched left row),
and the prefix string itself is returned alongside. -/

structure PEvent where
  start : Int × Int
  end_ : Int × Int
  hw_id : String
  duration : Int
  intensity : ℚ
  severity : ℚ
  method : String
deriving DecidableEq, Repr

structure PVals where
  hw_id : String
  duration : Int
  intensity : ℚ
  severity : ℚ
  method : String
deriving DecidableEq, Repr

/-- The projected columns (`cols = [hw_id, duration_d, intensity_c,
severity_cday, method]`) of one event. -/
def valsOf (e : PEvent) : PVals :=
  ⟨e.hw_id, e.duration, e.intensity, e.severity, e.method⟩

/-- The calendar day `d` lies in the event's normalized day span. -/
def coversB (e : PEvent) (d : Int) : Bool :=
  decide (e.start.1 ≤ d) && decide (d ≤ e.end_.1)

/-- The mapper frame: one row `(date, event columns)` per covered day per
event, events in order, days in order. -/
def pmapper (evs : List PEvent) : List (Int × PVals) :=
  evs.flatMap (fun e =>
    (daysRange e.start.1 e.end_.1).map (fun d => (d, valsOf e)))

/-- One timeline row through the left merge on `date`: all matching
mapper rows, or a single null row. -/
def expandRow (evs : List PEvent) (t : Int × Int) :
    List ((Int × Int) × Option PVals) :=
  match (pmapper evs).filter (fun q => q.1 == t.1) with
  | [] => [(t, none)]
  | q :: qs => (q :: qs).map (fun q' => (t, some q'.2))

def expand_event_metrics_to_timeseries (evs : List PEvent)
    (timeline : List (Int × Int)) (method_label : String) :
    String × List ((Int × Int) × Option PVals) :=
  (method_label.toUpper ++ "_", timeline.flatMap (expandRow evs))

/-! ## Event standardizer and identifiers (src/events_utils.py)

`standardize_events` sorts by (start asc, end asc, peak desc) with pandas
`kind="mergesort"` (a stable sort); `attach_event_id` re-sorts the same
way, ranks events 1-based within their start year (`groupby("year").
cumcount() + 1`) and builds
`{site}-{method}-{start:%Y%m%d}-{seq:03d}`.  Dates are (year, month,
day) triples; `%Y`/`%m`/`%d`/`%03d` are decimal renderings zero-padded
to 4/2/2/3 digits. -/

/-- Big-endian decimal digit characters of `n` (empty for 0, which only
ever occurs under padding here). -/
def digitChars (n : Nat) : List Char :=
  ((Nat.digits 10 n).map Nat.digitChar).reverse

/-- Zero-pad to width `w` (Python's `%0wd`). -/
def padChars (w n : Nat) : List Char :=
  List.replicate (w - (digitChars n).length) '0' ++ digitChars n

def padNat (w n : Nat) : String := ⟨padChars w n⟩

def charVal (c : Char) : Nat := c.toNat - 48

/-- Numeric value of a big-endian decimal character list: the parsing
inverse used to show the renderings are injective. -/
def strVal (l : List Char) : Nat :=
  Nat.ofDigits 10 ((l.map charVal).reverse)

structure MDate where
  y : Nat
  m : Nat
  d : Nat
deriving DecidableEq, Repr

structure SEvent where
  start : MDate
  end_ : MDate
  peak : ℚ
deriving DecidableEq, Repr

/-- The sort key of `sort_values(["start","end","peak_c"],
ascending=[True, True, False])`: chronological start, then chronological
end, then peak *descending* (via the order dual). -/
def evKey (e : SEvent) :
    Lex (Nat × Lex (Nat × Lex (Nat × Lex (Nat × Lex (Nat × Lex (Nat × ℚᵒᵈ)))))) :=
  toLex (e.start.y, toLex (e.start.m, toLex (e.start.d,
    toLex (e.end_.y, toLex (e.end_.m, toLex (e.end_.d,
      OrderDual.toDual e.peak))))))

def evLe (a b : SEvent) : Bool := decide (evKey a ≤ evKey b)

/-- Embedding of `standardize_events`' deterministic ordering step: a stable merge
sort by the (start asc, end asc, peak desc) key (`kind="mergesort"`).
The schema-stamping steps (fixed site/method/level columns) carry no
ordering content and are omitted. -/
def standardize_events (es : List SEvent) : List SEvent :=
  es.mergeSort evLe

/-- Embedding of `groupby(df["start"].dt.year).cumcount() + 1` over an (already
sorted) event list: each event paired with its 1-based rank among
earlier events sharing its start year. -/
def seqYear (es : List SEvent) : List (SEvent × Nat) :=
  es.enum.map (fun p => (p.2,
    1 + ((es.take p.1).filter
      (fun x => x.start.y == p.2.start.y)).length))

/-- Identifier format `{site_id}-{method}-{start:%Y%m%d}-{seq:03d}`. -/
def hw_id_str (site method : String) (e : SEvent) (seq : Nat) : String :=
  site ++ "-" ++ method ++ "-" ++ padNat 4 e.start.y ++ padNat 2 e.start.m
    ++ padNat 2 e.start.d ++ "-" ++ padNat 3 seq

/-- Embedding of `attach_event_id`: sort deterministically, rank within start year,
build the identifier. -/
def attach_event_id (es : List SEvent) (site method : String) :
    List (SEvent × String) :=
  (seqYear (es.mergeSort evLe)).map
    (fun p => (p.1, hw_id_str site method p.1 p.2))

/-! Theorems: the claims C1-C10 of the specification, their
counterexamples and witnesses, and the supporting lemmas. -/

/-- C3 counterexample: one event of method "M" spanning the two calendar
days `[0, 1]` (raw bounds: hour 0 to hour 24), and an hourly timeline
containing hour 34 (= day 1, 10:00).  The day of hour 34 lies inside the
event's day interval, yet `flags_from_events` leaves it unflagged, because
the source compares raw timestamps and never date-normalizes. -/
theorem C3_counterexample :
    flags_from_events [⟨0, 24, "M"⟩] [34] "M" = [(34, false)] ∧
    dayOf 0 ≤ dayOf 34 ∧ dayOf 34 ≤ dayOf 24 := by
  decide

/-- C3 (amended): the boolean column returned by `flags_from_events` is
True at a timestamp iff that raw timestamp falls within at least one
selected-method event's `[start, end]` interval, inclusive at both ends,
with no date normalization; the timestamps of the timeline are preserved
in order. -/
theorem C3_flags_raw_interval (events : List FEvent) (timeline : List Int)
    (method : String) :
    (flags_from_events events timeline method).map Prod.fst = timeline ∧
    ∀ t ∈ timeline,
      ((t, true) ∈ flags_from_events events timeline method ↔
        ∃ e ∈ events, e.method = method ∧ e.start ≤ t ∧ t ≤ e.end_) := by
  constructor
  · simp [flags_from_events, Function.comp_def]
  · intro t ht
    constructor
    · intro hmem
      simp only [flags_from_events, List.mem_map] at hmem
      obtain ⟨t', _, hpair⟩ := hmem
      have ht' : t' = t := congrArg Prod.fst hpair
      subst ht'
      have hflag := congrArg Prod.snd hpair
      simp only [List.any_eq_true, List.mem_filter, Bool.and_eq_true,
        decide_eq_true_eq, beq_iff_eq] at hflag
      obtain ⟨e, ⟨hev, hm⟩, h1, h2⟩ := hflag
      exact ⟨e, hev, hm, h1, h2⟩
    · intro ⟨e, hev, hm, h1, h2⟩
      simp only [flags_from_events, List.mem_map]
      refine ⟨t, ht, ?_⟩
      have : (events.filter (fun e => e.method == method)).any
          (fun e => decide (e.start ≤ t) && decide (t ≤ e.end_)) = true := by
        simp only [List.any_eq_true, List.mem_filter, Bool.and_eq_true,
          decide_eq_true_eq, beq_iff_eq]
        exact ⟨e, ⟨hev, hm⟩, h1, h2⟩
      simp [this]

/-- Closed witness for `C3_flags_raw_interval` at a concrete input. -/
theorem C3_flags_raw_interval_witness :
    ((flags_from_events [⟨0, 24, "M"⟩] [34] "M").map Prod.fst = [34]) ∧
    ∀ t ∈ [(34 : Int)],
      ((t, true) ∈ flags_from_events [⟨0, 24, "M"⟩] [34] "M" ↔
        ∃ e ∈ [(⟨0, 24, "M"⟩ : FEvent)],
          e.method = "M" ∧ e.start ≤ t ∧ t ≤ e.end_) :=
  C3_flags_raw_interval [⟨0, 24, "M"⟩] [34] "M"

/-! ## Generic fold lemmas used for `groupby(...).agg(min/max)` -/

theorem foldl_min_eq_of_le {α : Type} [LinearOrder α] (l : List α) (a : α)
    (h : ∀ x ∈ l, a ≤ x) : l.foldl min a = a := by
  induction l generalizing a with
  | nil => rfl
  | cons x xs ih =>
    simp only [List.foldl_cons]
    rw [min_eq_left (h x (List.mem_cons_self x xs))]
    exact ih a fun y hy => h y (List.mem_cons_of_mem x hy)

theorem foldl_max_eq {α : Type} [LinearOrder α] (l : List α) (a b : α)
    (hab : a ≤ b) (hub : ∀ x ∈ l, x ≤ b) (hmem : b = a ∨ b ∈ l) :
    l.foldl max a = b := by
  induction l generalizing a with
  | nil =>
    rcases hmem with h | h
    · exact h.symm
    · exact absurd h (List.not_mem_nil b)
  | cons x xs ih =>
    simp only [List.foldl_cons]
    have hx : x ≤ b := hub x (List.mem_cons_self x xs)
    have hub' : ∀ y ∈ xs, y ≤ b := fun y hy => hub y (List.mem_cons_of_mem x hy)
    rcases hmem with h | h
    · subst h
      have : max b x = b := max_eq_left hx
      rw [this]
      exact ih b le_rfl hub' (Or.inl rfl)
    · rcases List.mem_cons.mp h with h | h
      · subst h
        have : max a b = b := max_eq_right hab
        rw [this]
        exact ih b le_rfl hub' (Or.inl rfl)
      · exact ih (max a x) (max_le hab hx) hub' (Or.inr h)

/-- C2 counterexample: normals ≡ 20, delta = 5 (threshold 25), three
consecutive days with maxima 10, 30, 10.  Day 1 is a run of length one: it
yields no event, but the returned flag series still marks it `true`
(the source returns the raw `hit` column), so the flag series does *not*
mark exactly the days covered by emitted events. -/
theorem C2_counterexample :
    detect_inmet_events (fun _ => 1) (fun _ => some 20) 5
        [⟨0, 10⟩, ⟨1, 30⟩, ⟨2, 10⟩]
      = ([], [(0, false), (1, true), (2, false)]) := by
  norm_num [detect_inmet_events, hitRunsF, inmetHit, mkAEvent,
    List.takeWhile, List.dropWhile, List.filterMap, List.filter, List.dedup]

/-- C2 (amended): runs of length one are dropped from the *events* (every
emitted event has `duration_d ≥ 2`), but the returned flag series is the
raw per-day hit indicator — day `k` is flagged iff its maximum reaches
that day's month normal plus the offset, regardless of whether any event
covers it. -/
theorem C2_flags_are_raw_hits (monthOf : Nat → Nat)
    (normals : Nat → Option ℚ) (delta : ℚ) (rows : List ARow) :
    (∀ ev ∈ (detect_inmet_events monthOf normals delta rows).1,
        2 ≤ ev.duration) ∧
    (detect_inmet_events monthOf normals delta rows).2
      = rows.map (fun r => (r.day, inmetHit monthOf normals delta r)) ∧
    ∀ r ∈ rows,
      (inmetHit monthOf normals delta r = true ↔
        ∃ nv, normals (monthOf r.day) = some nv ∧ nv + delta ≤ r.tmax) := by
  refine ⟨?_, rfl, ?_⟩
  · intro ev hev
    have := (List.mem_filter.mp hev).2
    simpa using this
  · intro r _
    unfold inmetHit
    cases h : normals (monthOf r.day) with
    | none => simp [h]
    | some nv => simp [h]

/-- Closed witness for `C2_flags_are_raw_hits`. -/
theorem C2_flags_are_raw_hits_witness :
    (∀ ev ∈ (detect_inmet_events (fun _ => 1) (fun _ => some 20) 5
        [⟨0, 10⟩, ⟨1, 30⟩, ⟨2, 10⟩]).1, 2 ≤ ev.duration) ∧
    (detect_inmet_events (fun _ => 1) (fun _ => some 20) 5
        [⟨0, 10⟩, ⟨1, 30⟩, ⟨2, 10⟩]).2
      = [⟨0, 10⟩, ⟨1, 30⟩, ⟨2, 10⟩].map
          (fun r => (r.day, inmetHit (fun _ => 1) (fun _ => some 20) 5 r)) ∧
    ∀ r ∈ [(⟨0, 10⟩ : ARow), ⟨1, 30⟩, ⟨2, 10⟩],
      (inmetHit (fun _ => 1) (fun _ => some 20) 5 r = true ↔
        ∃ nv, (fun _ => some 20) ((fun _ => 1) r.day) = some nv ∧
          nv + 5 ≤ r.tmax) :=
  C2_flags_are_raw_hits (fun _ => 1) (fun _ => some 20) 5
    [⟨0, 10⟩, ⟨1, 30⟩, ⟨2, 10⟩]

/-- Every run produced by `hitRunsF` is a nonempty block of row-adjacent
rows of the input, all of which satisfy `hit`.  (This is all the
`shift/cumsum` grouping guarantees: adjacency is in *row* position, not in
calendar days.) -/
theorem hitRunsF_blocks (hit : ARow → Bool) (rows : List ARow) :
    ∀ (fuel i : Nat) (l : List ARow), l = rows.drop i → l.length ≤ fuel →
    ∀ run ∈ hitRunsF hit fuel l,
      ∃ p n, i ≤ p ∧ 0 < n ∧ p + n ≤ rows.length ∧
        run = (rows.drop p).take n ∧
        ∀ x ∈ run, hit x = true := by
  intro fuel
  induction fuel with
  | zero =>
    intro i l _ _ run hrun
    simp [hitRunsF] at hrun
  | succ fuel ih =>
    intro i l hl hlen run hrun
    cases l with
    | nil => simp [hitRunsF] at hrun
    | cons r rest =>
      have hi : i < rows.length := by
        by_contra hcon
        push_neg at hcon
        rw [List.drop_eq_nil_of_le hcon] at hl
        exact List.cons_ne_nil r rest hl
      have hdropi : rows.drop i = r :: rest := hl.symm
      have hdrop1 : rows.drop (i + 1) = rest := by
        have h0 := List.drop_eq_getElem_cons hi
        rw [hdropi] at h0
        exact ((List.cons.injEq _ _ _ _ ▸ h0).2).symm
      have hlenrest : rest.length ≤ fuel := by
        have : (r :: rest).length ≤ fuel + 1 := hlen
        simpa using this
      by_cases hhit : hit r = true
      · simp only [hitRunsF, hhit, if_true, List.mem_cons] at hrun
        rcases hrun with hrun | hrun
        · -- the run opened at row i
          subst hrun
          set t := (rest.takeWhile hit).length with ht
          have htw : rest.takeWhile hit = rest.take t :=
            List.prefix_iff_eq_take.mp ( List.takeWhile_prefix hit)
          have htle : t ≤ rest.length :=
            ( List.takeWhile_prefix hit).length_le
          have hlenrows : rows.length = i + 1 + rest.length := by
            have := congrArg List.length hdropi
            simp [List.length_drop] at this
            omega
          refine ⟨i, t + 1, le_rfl, Nat.succ_pos t, by omega, ?_, ?_⟩
          · rw [hdropi]
            simp [List.take_succ_cons, htw]
          · intro x hx
            rcases List.mem_cons.mp hx with hx | hx
            · subst hx; exact hhit
            · exact List.mem_takeWhile_imp hx
        · -- run from the tail after the block
          set t := (rest.takeWhile hit).length with ht
          have htw : rest.takeWhile hit = rest.take t :=
            List.prefix_iff_eq_take.mp ( List.takeWhile_prefix hit)
          have hdw : rest.dropWhile hit = rest.drop t := by
            have h1 := List.takeWhile_append_dropWhile (p := hit) (l := rest)
            rw [htw] at h1
            exact List.append_cancel_left (h1.trans (List.take_append_drop t rest).symm)
          have hdweq : rest.dropWhile hit = rows.drop (i + 1 + t) := by
            rw [hdw, ← hdrop1, List.drop_drop]
          have hdwlen : (rest.dropWhile hit).length ≤ fuel := by
            rw [hdw]
            simp [List.length_drop]
            omega
          obtain ⟨p, n, hip, hrest⟩ := ih (i + 1 + t) (rest.dropWhile hit)
            hdweq hdwlen run hrun
          exact ⟨p, n, by omega, hrest⟩
      · simp only [hitRunsF, hhit, if_false, Bool.false_eq_true] at hrun
        obtain ⟨p, n, hip, hrest⟩ := ih (i + 1) rest hdrop1.symm hlenrest run hrun
        exact ⟨p, n, by omega, hrest⟩

/-- C4 counterexample: normals ≡ 20, delta = 5 (threshold 25); four rows
on calendar days 0, 1, 5, 6 — a day-index gap between the second and third
rows — all with maxima 30.  The `shift/cumsum` grouping sees one single
run of four *row-adjacent* hits: the emitted event spans `[0, 6]` (seven
calendar days) with `duration_d = 4`, so a day-index gap does *not* break
a run, the event does not span only consecutive calendar days, and days
2-4 inside `[start, end]` have no data at all (hence no threshold
exceedance). -/
theorem C4_counterexample :
    (detect_inmet_events (fun _ => 1) (fun _ => some 20) 5
        [⟨0, 30⟩, ⟨1, 30⟩, ⟨5, 30⟩, ⟨6, 30⟩]).1
      = [⟨0, 6, 4, 30⟩] ∧ (6 : Nat) + 1 - 0 ≠ 4 := by
  constructor
  · norm_num [detect_inmet_events, hitRunsF, inmetHit, mkAEvent,
      List.takeWhile, List.dropWhile, List.filterMap, List.filter,
      List.dedup, List.foldl]
  · decide

/-- C4 (amended): a run breaks only when `hit` changes between *adjacent
rows* (there is no day-gap test in the source).  Under the additional
assumption that the input rows are consecutive calendar days (row `k` is
day `d0 + k`), every emitted event has `duration_d ≥ 2`, spans exactly the
consecutive days `[start, end]` with `duration_d = end - start + 1`, and
every day in `[start, end]` belongs to a row whose maximum reaches that
day's month normal plus the offset. -/
theorem C4_consecutive_days (monthOf : Nat → Nat)
    (normals : Nat → Option ℚ) (delta : ℚ) (rows : List ARow) (d0 : Nat)
    (hdays : ∀ (k : Nat) (hk : k < rows.length),
      (rows.get ⟨k, hk⟩).day = d0 + k) :
    ∀ ev ∈ (detect_inmet_events monthOf normals delta rows).1,
      2 ≤ ev.duration ∧
      ev.start ≤ ev.end_ ∧
      ev.duration = ev.end_ + 1 - ev.start ∧
      ∀ d, ev.start ≤ d → d ≤ ev.end_ →
        ∃ r ∈ rows, r.day = d ∧
          inmetHit monthOf normals delta r = true := by
  intro ev hev
  simp only [detect_inmet_events, List.mem_filter, decide_eq_true_eq] at hev
  obtain ⟨hmemFM, hdur⟩ := hev
  obtain ⟨run, hrunmem, hmk⟩ := List.mem_filterMap.mp hmemFM
  obtain ⟨p, n, -, hn, hpn, hruneq, hallhit⟩ :=
    hitRunsF_blocks (inmetHit monthOf normals delta) rows rows.length 0 rows
      (List.drop_zero rows).symm le_rfl run hrunmem
  have hrunlen : run.length = n := by
    rw [hruneq]
    simp [List.length_take, List.length_drop]
    omega
  -- each element of the run, by position
  have hrunget : ∀ (j : Nat) (hj : j < run.length),
      run.get ⟨j, hj⟩ = rows.get ⟨p + j, by omega⟩ := by
    intro j hj
    have hj' : j < n := by omega
    have hjt : j < ((rows.drop p).take n).length := by
      simp [List.length_take, List.length_drop]
      omega
    have hjd : j < (rows.drop p).length := by
      simp [List.length_drop]
      omega
    have hpj : p + j < rows.length := by omega
    have h1 : run.get ⟨j, hj⟩ = ((rows.drop p).take n).get ⟨j, hjt⟩ := by
      simp only [List.get_eq_getElem]
      exact List.getElem_of_eq hruneq hj
    have h2 : ((rows.drop p).take n).get ⟨j, hjt⟩
        = (rows.drop p).get ⟨j, hjd⟩ := by
      simp only [List.get_eq_getElem]
      exact List.getElem_take (rows.drop p)
    have h3 : (rows.drop p).get ⟨j, hjd⟩ = rows.get ⟨p + j, hpj⟩ := by
      simp only [List.get_eq_getElem]
      exact List.getElem_drop rows
    rw [h1, h2, h3]
  have hrunday : ∀ (j : Nat) (hj : j < run.length),
      (run.get ⟨j, hj⟩).day = d0 + p + j := by
    intro j hj
    rw [hrunget j hj, hdays (p + j) (by omega)]
    omega
  -- the run's day column is the consecutive range
  have hdaysrange : run.map (fun x => x.day) = List.range' (d0 + p) n := by
    apply List.ext_getElem
    · simp [hrunlen]
    · intro j h1 h2
      have hj : j < run.length := by simpa [hrunlen] using h2
      have := hrunday j hj
      simp only [List.getElem_map, List.getElem_range']
      simp only [List.get_eq_getElem] at this
      rw [this]
      ring
  -- destructure the run
  cases hrun : run with
  | nil => rw [hrun] at hrunlen; simp at hrunlen; omega
  | cons r rs =>
    rw [hrun] at hmk
    simp only [mkAEvent, Option.some.injEq] at hmk
    rw [hrun] at hdaysrange
    have hn1 : n = (n - 1) + 1 := by omega
    rw [hn1, List.range'_succ] at hdaysrange
    simp only [List.map_cons, List.cons.injEq] at hdaysrange
    obtain ⟨hrday, hrsdays⟩ := hdaysrange
    have hconsrange : (d0 + p) :: List.range' (d0 + p + 1) (n - 1)
        = List.range' (d0 + p) n := by
      conv_rhs => rw [hn1]
      rw [List.range'_succ]
    -- start = d0 + p
    have hstart : ev.start = d0 + p := by
      rw [← hmk]
      simp only
      rw [show (fun (a : Nat) (x : ARow) => min a x.day)
        = (fun a x => min a ((fun y => y.day) x)) from rfl]
      rw [← List.foldl_map (fun y => y.day) min rs r.day, hrsdays, hrday]
      apply foldl_min_eq_of_le
      intro x hx
      have := List.mem_range'_1.mp hx
      omega
    -- end = d0 + p + (n - 1)
    have hend : ev.end_ = d0 + p + (n - 1) := by
      rw [← hmk]
      simp only
      rw [show (fun (a : Nat) (x : ARow) => max a x.day)
        = (fun a x => max a ((fun y => y.day) x)) from rfl]
      rw [← List.foldl_map (fun y => y.day) max rs r.day, hrsdays, hrday]
      apply foldl_max_eq
      · omega
      · intro x hx
        have := List.mem_range'_1.mp hx
        omega
      · rcases Nat.eq_zero_or_pos (n - 1) with h | h
        · left; omega
        · right
          apply List.mem_range'_1.mpr
          omega
    -- duration = n
    have hduration : ev.duration = n := by
      rw [← hmk]
      simp only
      rw [List.map_cons, hrday, hrsdays, hconsrange]
      rw [List.dedup_eq_self.mpr (List.nodup_range' (d0 + p) n)]
      exact List.length_range' _ _ _
    refine ⟨hdur, ?_, ?_, ?_⟩
    · rw [hstart, hend]; omega
    · rw [hstart, hend, hduration]; omega
    · intro d hd1 hd2
      rw [hstart] at hd1
      rw [hend] at hd2
      have hj : d - (d0 + p) < run.length := by rw [hrunlen]; omega
      refine ⟨run.get ⟨d - (d0 + p), hj⟩, ?_, ?_, ?_⟩
      · rw [hrunget _ hj]
        exact List.get_mem rows _ _
      · rw [hrunday _ hj]
        omega
      · exact hallhit _ (List.get_mem run _ _)

/-- Closed witness for `C4_consecutive_days`: consecutive days 0-2,
threshold 25, maxima 30/30/10 — the emitted event covers days 0-1. -/
theorem C4_consecutive_days_witness :
    2 ≤ (⟨0, 1, 2, 30⟩ : AEvent).duration ∧
    (⟨0, 1, 2, 30⟩ : AEvent).start ≤ (⟨0, 1, 2, 30⟩ : AEvent).end_ ∧
    (⟨0, 1, 2, 30⟩ : AEvent).duration
      = (⟨0, 1, 2, 30⟩ : AEvent).end_ + 1 - (⟨0, 1, 2, 30⟩ : AEvent).start ∧
    ∀ d, (⟨0, 1, 2, 30⟩ : AEvent).start ≤ d →
      d ≤ (⟨0, 1, 2, 30⟩ : AEvent).end_ →
      ∃ r ∈ [(⟨0, 30⟩ : ARow), ⟨1, 30⟩, ⟨2, 10⟩], r.day = d ∧
        inmetHit (fun _ => 1) (fun _ => some 20) 5 r = true :=
  C4_consecutive_days (fun _ => 1) (fun _ => some 20) 5
    [⟨0, 30⟩, ⟨1, 30⟩, ⟨2, 10⟩] 0
    (by
      intro k hk
      simp only [List.length_cons, List.length_nil] at hk
      interval_cases k <;> rfl)
    ⟨0, 1, 2, 30⟩
    (by norm_num [detect_inmet_events, hitRunsF, inmetHit, mkAEvent,
      List.takeWhile, List.dropWhile, List.filterMap, List.filter,
      List.dedup, List.foldl])

/-- C5: the spec scenario.  Input `[18,19,25,26,27,17,16,15,24]` over
nine consecutive days (indices 0-8) with `sdeb = 20`, `sint = 16.5`,
`spic = 24.5`, `n_consecutive = 3`: exactly one event, opening at index 2
(day 3, value 25, the first value > 20), running peak 27, ending at index
6 (day 7, value 16, the first value < 16.5), duration 5; the candidate
opened at index 8 (day 9, value 24) is discarded because its peak 24
never reaches 24.5. -/
theorem C5_scenario :
    detect_ouzeau_events 20 (33/2) (49/2) 3
        [18, 19, 25, 26, 27, 17, 16, 15, 24]
      = [⟨2, 6, 5, 27⟩] := by
  norm_num [detect_ouzeau_events, ouzeauScan, innerScanL, max_def]

theorem belowRun_self (sdeb : ℚ) (vals : List ℚ) (s : Nat) :
    belowRun sdeb vals s s = 0 := by
  cases s with
  | zero => rfl
  | succ t => simp [belowRun]

theorem belowRun_succ (sdeb : ℚ) (vals : List ℚ) (s j : Nat) (h : s ≤ j) :
    belowRun sdeb vals s (j + 1) =
      if vals.getD (j + 1) 0 < sdeb then belowRun sdeb vals s j + 1
      else 0 := by
  simp only [belowRun]
  rw [if_neg (by omega)]

/-- Behaviour of the inner Method B loop, relative to the full series:
starting from examined day `j` with running peak `m` and counter `c`, the
loop stops at the first later day satisfying the end condition (or at the
series end), and its running peak is exactly the maximum of the values
over `[s, end]`. -/
theorem innerScanL_spec (sint sdeb : ℚ) (ncons : Nat) (hn : 0 < ncons)
    (vals : List ℚ) (s : Nat) :
    ∀ (l : List ℚ) (j : Nat) (m : ℚ) (c : Nat),
      l = vals.drop (j + 1) →
      s ≤ j → j < vals.length →
      c = belowRun sdeb vals s j →
      c < ncons →
      (∀ k, s < k → k ≤ j → ¬ endCondB sint sdeb ncons vals s k) →
      (∀ k, s ≤ k → k ≤ j → vals.getD k 0 ≤ m) →
      (∃ k, s ≤ k ∧ k ≤ j ∧ m = vals.getD k 0) →
      j ≤ (innerScanL sint sdeb ncons j m c l).1 ∧
      (innerScanL sint sdeb ncons j m c l).1 < vals.length ∧
      (innerScanL sint sdeb ncons j m c l).2.2
        = vals.drop ((innerScanL sint sdeb ncons j m c l).1 + 1) ∧
      (∀ k, s ≤ k → k ≤ (innerScanL sint sdeb ncons j m c l).1 →
        vals.getD k 0 ≤ (innerScanL sint sdeb ncons j m c l).2.1) ∧
      (∃ k, s ≤ k ∧ k ≤ (innerScanL sint sdeb ncons j m c l).1 ∧
        (innerScanL sint sdeb ncons j m c l).2.1 = vals.getD k 0) ∧
      (∀ k, s < k → k < (innerScanL sint sdeb ncons j m c l).1 →
        ¬ endCondB sint sdeb ncons vals s k) ∧
      (endCondB sint sdeb ncons vals s (innerScanL sint sdeb ncons j m c l).1 ∨
        (innerScanL sint sdeb ncons j m c l).1 = vals.length - 1) := by
  intro l
  induction l with
  | nil =>
    intro j m c hl hs hj hc hcn hnob hbound hwit
    have hlen : vals.length ≤ j + 1 := by
      by_contra hcon
      push_neg at hcon
      have := List.drop_eq_getElem_cons hcon
      rw [← hl] at this
      exact List.cons_ne_nil _ _ this.symm
    simp only [innerScanL]
    refine ⟨le_rfl, hj, ?_, hbound, hwit, ?_, Or.inr (by omega)⟩
    · rw [hl]
    · intro k hk1 hk2
      exact hnob k hk1 (by omega)
  | cons v rest ih =>
    intro j m c hl hs hj hc hcn hnob hbound hwit
    have hj1 : j + 1 < vals.length := by
      by_contra hcon
      push_neg at hcon
      rw [List.drop_eq_nil_of_le hcon] at hl
      exact List.cons_ne_nil v rest hl
    have hcons := List.drop_eq_getElem_cons hj1
    rw [← hl] at hcons
    have hv : vals.getD (j + 1) 0 = v := by
      rw [List.getD_eq_getElem vals 0 hj1]
      exact ((List.cons.injEq _ _ _ _ ▸ hcons).1).symm
    have hrest : rest = vals.drop (j + 2) :=
      (List.cons.injEq _ _ _ _ ▸ hcons).2
    have hbelow := belowRun_succ sdeb vals s j hs
    by_cases hsint : v < sint
    · -- hard stop: value below the exit-confirmation threshold
      simp only [innerScanL, if_pos hsint]
      have hendc : endCondB sint sdeb ncons vals s (j + 1) := by
        unfold endCondB
        left
        rw [hv]
        exact hsint
      refine ⟨by omega, hj1, by rw [hrest], ?_, ?_, ?_, Or.inl hendc⟩
      · intro k hk1 hk2
        rcases Nat.lt_succ_iff_lt_or_eq.mp (Nat.lt_succ_of_le hk2) with hk | hk
        · exact le_trans (hbound k hk1 (by omega)) (le_max_left m v)
        · rw [hk, hv]; exact le_max_right m v
      · rcases max_choice m v with hmv | hmv
        · obtain ⟨k, h1, h2, h3⟩ := hwit
          exact ⟨k, h1, by omega, by rw [hmv, h3]⟩
        · exact ⟨j + 1, by omega, le_rfl, by rw [hmv, hv]⟩
      · intro k hk1 hk2
        exact hnob k hk1 (by omega)
    · by_cases hsdeb : v < sdeb
      · have hbr1 : belowRun sdeb vals s (j + 1) = c + 1 := by
          rw [hbelow, if_pos (by rw [hv]; exact hsdeb), hc]
        by_cases hterm : ncons ≤ c + 1
        · -- counter reached n_consecutive: stop here
          simp only [innerScanL, if_neg hsint, if_pos hsdeb, if_pos hterm]
          have hendc : endCondB sint sdeb ncons vals s (j + 1) := by
            unfold endCondB
            right
            rw [hbr1]
            exact hterm
          refine ⟨by omega, hj1, by rw [hrest], ?_, ?_, ?_, Or.inl hendc⟩
          · intro k hk1 hk2
            rcases Nat.lt_succ_iff_lt_or_eq.mp (Nat.lt_succ_of_le hk2) with hk | hk
            · exact le_trans (hbound k hk1 (by omega)) (le_max_left m v)
            · rw [hk, hv]; exact le_max_right m v
          · rcases max_choice m v with hmv | hmv
            · obtain ⟨k, h1, h2, h3⟩ := hwit
              exact ⟨k, h1, by omega, by rw [hmv, h3]⟩
            · exact ⟨j + 1, by omega, le_rfl, by rw [hmv, hv]⟩
          · intro k hk1 hk2
            exact hnob k hk1 (by omega)
        · -- counter advanced but below n_consecutive: continue
          simp only [innerScanL, if_neg hsint, if_pos hsdeb, if_neg hterm]
          have hnob' : ∀ k, s < k → k ≤ j + 1 →
              ¬ endCondB sint sdeb ncons vals s k := by
            intro k hk1 hk2
            rcases Nat.lt_succ_iff_lt_or_eq.mp (Nat.lt_succ_of_le hk2) with hk | hk
            · exact hnob k hk1 (by omega)
            · subst hk
              intro hend
              rcases hend with hend | hend
              · rw [hv] at hend; exact hsint hend
              · rw [hbr1] at hend; exact hterm hend
          have hbound' : ∀ k, s ≤ k → k ≤ j + 1 →
              vals.getD k 0 ≤ max m v := by
            intro k hk1 hk2
            rcases Nat.lt_succ_iff_lt_or_eq.mp (Nat.lt_succ_of_le hk2) with hk | hk
            · exact le_trans (hbound k hk1 (by omega)) (le_max_left m v)
            · rw [hk, hv]; exact le_max_right m v
          have hwit' : ∃ k, s ≤ k ∧ k ≤ j + 1 ∧ max m v = vals.getD k 0 := by
            rcases max_choice m v with hmv | hmv
            · obtain ⟨k, h1, h2, h3⟩ := hwit
              exact ⟨k, h1, by omega, by rw [hmv, h3]⟩
            · exact ⟨j + 1, by omega, le_rfl, by rw [hmv, hv]⟩
          have hres := ih (j + 1) (max m v) (c + 1) (by rw [hrest]) (by omega)
            hj1 hbr1.symm (by omega) hnob' hbound' hwit'
          exact ⟨Nat.le_of_succ_le hres.1, hres.2⟩
      · -- value at or above sdeb: counter resets
        have hbr0 : belowRun sdeb vals s (j + 1) = 0 := by
          rw [hbelow, if_neg (by rw [hv]; exact hsdeb)]
        simp only [innerScanL, if_neg hsint, if_neg hsdeb]
        have hnob' : ∀ k, s < k → k ≤ j + 1 →
            ¬ endCondB sint sdeb ncons vals s k := by
          intro k hk1 hk2
          rcases Nat.lt_succ_iff_lt_or_eq.mp (Nat.lt_succ_of_le hk2) with hk | hk
          · exact hnob k hk1 (by omega)
          · subst hk
            intro hend
            rcases hend with hend | hend
            · rw [hv] at hend; exact hsint hend
            · rw [hbr0] at hend; omega
        have hbound' : ∀ k, s ≤ k → k ≤ j + 1 →
            vals.getD k 0 ≤ max m v := by
          intro k hk1 hk2
          rcases Nat.lt_succ_iff_lt_or_eq.mp (Nat.lt_succ_of_le hk2) with hk | hk
          · exact le_trans (hbound k hk1 (by omega)) (le_max_left m v)
          · rw [hk, hv]; exact le_max_right m v
        have hwit' : ∃ k, s ≤ k ∧ k ≤ j + 1 ∧ max m v = vals.getD k 0 := by
          rcases max_choice m v with hmv | hmv
          · obtain ⟨k, h1, h2, h3⟩ := hwit
            exact ⟨k, h1, by omega, by rw [hmv, h3]⟩
          · exact ⟨j + 1, by omega, le_rfl, by rw [hmv, hv]⟩
        have hres := ih (j + 1) (max m v) 0 (by rw [hrest]) (by omega) hj1
          hbr0.symm hn hnob' hbound' hwit'
        exact ⟨Nat.le_of_succ_le hres.1, hres.2⟩

/-- Behaviour of the outer Method B scan: every emitted event is a
qualified candidate whose end is the first end-condition day (or the
series end), and the emitted events are chronological and
non-overlapping. -/
theorem ouzeauScan_spec (sdeb sint spic : ℚ) (ncons : Nat) (hn : 0 < ncons)
    (vals : List ℚ) :
    ∀ (fuel i : Nat) (l : List ℚ),
      l = vals.drop i → l.length ≤ fuel →
      (∀ ev ∈ ouzeauScan sdeb sint spic ncons fuel i l,
        i ≤ ev.start ∧ ev.start ≤ ev.end_ ∧ ev.end_ < vals.length ∧
        ev.duration = ev.end_ - ev.start + 1 ∧
        spic ≤ ev.peak ∧
        (∀ k, ev.start ≤ k → k ≤ ev.end_ → vals.getD k 0 ≤ ev.peak) ∧
        (∃ k, ev.start ≤ k ∧ k ≤ ev.end_ ∧ ev.peak = vals.getD k 0) ∧
        (∀ k, ev.start < k → k < ev.end_ →
          ¬ endCondB sint sdeb ncons vals ev.start k) ∧
        (endCondB sint sdeb ncons vals ev.start ev.end_ ∨
          ev.end_ = vals.length - 1)) ∧
      List.Chain' (fun a b => a.end_ < b.start)
        (ouzeauScan sdeb sint spic ncons fuel i l) := by
  intro fuel
  induction fuel with
  | zero =>
    intro i l _ _
    constructor
    · intro ev hev
      simp [ouzeauScan] at hev
    · simp [ouzeauScan]
  | succ fuel ih =>
    intro i l hl hlen
    cases l with
    | nil =>
      constructor
      · intro ev hev
        simp [ouzeauScan] at hev
      · simp [ouzeauScan]
    | cons v rest =>
      have hi : i < vals.length := by
        by_contra hcon
        push_neg at hcon
        rw [List.drop_eq_nil_of_le hcon] at hl
        exact List.cons_ne_nil v rest hl
      have hcons := List.drop_eq_getElem_cons hi
      rw [← hl] at hcons
      have hv : vals.getD i 0 = v := by
        rw [List.getD_eq_getElem vals 0 hi]
        exact ((List.cons.injEq _ _ _ _ ▸ hcons).1).symm
      have hrest : rest = vals.drop (i + 1) :=
        (List.cons.injEq _ _ _ _ ▸ hcons).2
      have hrestlen : rest.length = vals.length - (i + 1) := by
        rw [hrest]
        exact List.length_drop (i + 1) vals
      have hlenrest : rest.length ≤ fuel := by
        have : (v :: rest).length ≤ fuel + 1 := hlen
        simpa using this
      simp only [ouzeauScan]
      by_cases hopen : sdeb < v
      · rw [if_pos hopen]
        have hinner := innerScanL_spec sint sdeb ncons hn vals i rest i v 0
          (by rw [hrest]) le_rfl hi (belowRun_self sdeb vals i).symm hn
          (by intro k hk1 hk2 hend; omega)
          (by
            intro k hk1 hk2
            have hk : k = i := by omega
            rw [hk, hv])
          ⟨i, le_rfl, le_rfl, hv.symm⟩
        set r := innerScanL sint sdeb ncons i v 0 rest with hr
        obtain ⟨hie, helen, hrdrop, hbound, hwit, hnob, hend⟩ := hinner
        have htaillen : r.2.2.length ≤ fuel := by
          rw [hrdrop, List.length_drop]
          omega
        obtain ⟨hrecev, hrecchain⟩ := ih (r.1 + 1) r.2.2 hrdrop htaillen
        by_cases hqual : spic ≤ r.2.1
        · rw [if_pos hqual]
          constructor
          · intro ev hev
            rcases List.mem_cons.mp hev with hev | hev
            · subst hev
              exact ⟨le_rfl, hie, helen, rfl, hqual, hbound, hwit, hnob, hend⟩
            · obtain ⟨h1, h2⟩ := hrecev ev hev
              exact ⟨by omega, h2⟩
          · apply List.chain'_cons'.mpr
            refine ⟨?_, hrecchain⟩
            intro y hy
            have hymem := List.mem_of_mem_head? hy
            have := (hrecev y hymem).1
            show r.1 < y.start
            omega
        · rw [if_neg hqual]
          constructor
          · intro ev hev
            obtain ⟨h1, h2⟩ := hrecev ev hev
            exact ⟨by omega, h2⟩
          · exact hrecchain
      · rw [if_neg hopen]
        obtain ⟨hrecev, hrecchain⟩ := ih (i + 1) rest hrest hlenrest
        constructor
        · intro ev hev
          obtain ⟨h1, h2⟩ := hrecev ev hev
          exact ⟨by omega, h2⟩
        · exact hrecchain

/-- C6: for every input series and thresholds (with `n_consecutive > 0`),
every event emitted by the Method B detector has its running peak over
`[start, end]` at least `spic` (the peak-qualification threshold) and
equal to the maximum value over the span; its end day is the first day at
which an end condition holds (value < `sint`, or `n_consecutive`
accumulated days with value < `sdeb`), or the last day of the series; and
the emitted events are chronological and non-overlapping (each event ends
strictly before the next starts — discarded candidates are skipped, not
re-scanned). -/
theorem C6_ouzeau_events (sdeb sint spic : ℚ) (ncons : Nat)
    (hn : 0 < ncons) (vals : List ℚ) :
    (∀ ev ∈ detect_ouzeau_events sdeb sint spic ncons vals,
      ev.start ≤ ev.end_ ∧ ev.end_ < vals.length ∧
      ev.duration = ev.end_ - ev.start + 1 ∧
      spic ≤ ev.peak ∧
      (∀ k, ev.start ≤ k → k ≤ ev.end_ → vals.getD k 0 ≤ ev.peak) ∧
      (∃ k, ev.start ≤ k ∧ k ≤ ev.end_ ∧ ev.peak = vals.getD k 0) ∧
      (∀ k, ev.start < k → k < ev.end_ →
        ¬ endCondB sint sdeb ncons vals ev.start k) ∧
      (endCondB sint sdeb ncons vals ev.start ev.end_ ∨
        ev.end_ = vals.length - 1)) ∧
    List.Chain' (fun a b => a.end_ < b.start)
      (detect_ouzeau_events sdeb sint spic ncons vals) := by
  obtain ⟨hev, hchain⟩ := ouzeauScan_spec sdeb sint spic ncons hn vals
    vals.length 0 vals (List.drop_zero vals).symm le_rfl
  exact ⟨fun ev hmem => ((hev ev hmem).2 : _), hchain⟩

/-- Closed witness for `C6_ouzeau_events` at the spec scenario input. -/
theorem C6_ouzeau_events_witness :
    (0 : Nat) < 3 ∧
    ((∀ ev ∈ detect_ouzeau_events 20 (33/2) (49/2) 3
        [18, 19, 25, 26, 27, 17, 16, 15, 24],
      ev.start ≤ ev.end_ ∧
      ev.end_ < ([18, 19, 25, 26, 27, 17, 16, 15, 24] : List ℚ).length ∧
      ev.duration = ev.end_ - ev.start + 1 ∧
      (49/2 : ℚ) ≤ ev.peak ∧
      (∀ k, ev.start ≤ k → k ≤ ev.end_ →
        ([18, 19, 25, 26, 27, 17, 16, 15, 24] : List ℚ).getD k 0 ≤ ev.peak) ∧
      (∃ k, ev.start ≤ k ∧ k ≤ ev.end_ ∧
        ev.peak = ([18, 19, 25, 26, 27, 17, 16, 15, 24] : List ℚ).getD k 0) ∧
      (∀ k, ev.start < k → k < ev.end_ →
        ¬ endCondB (33/2) 20 3 [18, 19, 25, 26, 27, 17, 16, 15, 24]
          ev.start k) ∧
      (endCondB (33/2) 20 3 [18, 19, 25, 26, 27, 17, 16, 15, 24]
          ev.start ev.end_ ∨
        ev.end_ = ([18, 19, 25, 26, 27, 17, 16, 15, 24] : List ℚ).length - 1)) ∧
    List.Chain' (fun a b => a.end_ < b.start)
      (detect_ouzeau_events 20 (33/2) (49/2) 3
        [18, 19, 25, 26, 27, 17, 16, 15, 24])) :=
  ⟨by decide,
    C6_ouzeau_events 20 (33/2) (49/2) 3 (by decide)
      [18, 19, 25, 26, 27, 17, 16, 15, 24]⟩

/-- C1 counterexample: the wet-bulb detector tags its events "TW_P90",
but the metrics engine's closed set is only {INMET, Ouzeau}: a wet-bulb
thresholds descriptor (single scalar bound to the method) is rejected
with the unknown-method validation error, contradicting the claim that
all three method tags succeed. -/
theorem C1_counterexample :
    compute_event_metrics (fun _ => 1) [⟨0, 0⟩] [] []
        ⟨"TW_P90", none, 5, some 25⟩
      = Except.error "Método desconhecido: TW_P90" := by
  rfl

/-- C1 (amended): `compute_event_metrics` succeeds exactly for the method
tags in the closed set {INMET, Ouzeau} (given the method's required
threshold inputs: a normals table with a recognizable normal column for
INMET, the single scalar `sdeb_c` for Ouzeau — whose daily excess is
computed from that scalar); every other tag, including the wet-bulb tag,
fails with a validation error. -/
theorem C1_method_dispatch (monthOf : Int → Nat) (events : List MEvent)
    (daily_tmean daily_tmax : List (Int × ℚ)) (thr : Thresholds) :
    (∃ out, compute_event_metrics monthOf events daily_tmean daily_tmax thr
        = Except.ok out) ↔
      ((thr.method = "INMET" ∧ ∃ nm, thr.normals_m = some nm ∧
          candidateCols.any (fun c => nm.cols.contains c) = true) ∨
        (thr.method = "Ouzeau" ∧ ∃ sdeb, thr.sdeb_c = some sdeb)) := by
  unfold compute_event_metrics methodExcess
  by_cases hM : thr.method = "INMET"
  · rw [if_pos hM]
    cases hn : thr.normals_m with
    | none =>
      simp [hM, hn, Except.map]
    | some nm =>
      unfold dailyExcessInmet
      by_cases hc : candidateCols.any (fun c => nm.cols.contains c) = true
      · have hc' : ∃ x ∈ candidateCols, x ∈ nm.cols := by simpa using hc
        simp [hM, hn, hc', Except.map]
      · have hc' : ¬ ∃ x ∈ candidateCols, x ∈ nm.cols := by simpa using hc
        simp [hM, hn, hc', Except.map]
  · rw [if_neg hM]
    by_cases hO : thr.method = "Ouzeau"
    · rw [if_pos hO]
      cases hs : thr.sdeb_c with
      | none => simp [hM, hO, hs, Except.map]
      | some sdeb => simp [hM, hO, hs, Except.map]
    · rw [if_neg hO]
      simp [hM, hO, Except.map]

/-- Closed witness for `C1_method_dispatch`: an Ouzeau descriptor with its
scalar threshold succeeds. -/
theorem C1_method_dispatch_witness :
    ∃ out, compute_event_metrics (fun _ => 1) [⟨0, 0⟩] [] []
      ⟨"Ouzeau", none, 5, some 25⟩ = Except.ok out :=
  (C1_method_dispatch (fun _ => 1) [⟨0, 0⟩] [] []
      ⟨"Ouzeau", none, 5, some 25⟩).mpr
    (Or.inr ⟨rfl, 25, rfl⟩)

/-! ### C8: sign and fallback behaviour of the metrics -/

theorem init_le_foldl_max {α : Type} [LinearOrder α] :
    ∀ (l : List α) (a : α), a ≤ l.foldl max a := by
  intro l
  induction l with
  | nil => intro a; exact le_rfl
  | cons y ys ih =>
    intro a
    exact le_trans (le_max_left a y) (ih (max a y))

theorem mem_le_foldl_max {α : Type} [LinearOrder α] :
    ∀ (l : List α) (a x : α), x ∈ l → x ≤ l.foldl max a := by
  intro l
  induction l with
  | nil => intro a x hx; exact absurd hx (List.not_mem_nil x)
  | cons y ys ih =>
    intro a x hx
    rcases List.mem_cons.mp hx with hx | hx
    · subst hx
      exact le_trans (le_max_right a x) (init_le_foldl_max ys (max a x))
    · exact ih (max a y) x hx

theorem foldl_max_mem {α : Type} [LinearOrder α] :
    ∀ (l : List α) (a : α), l.foldl max a = a ∨ l.foldl max a ∈ l := by
  intro l
  induction l with
  | nil => intro a; exact Or.inl rfl
  | cons y ys ih =>
    intro a
    rcases ih (max a y) with h | h
    · rcases max_choice a y with hm | hm
      · left
        simpa [hm] using h
      · right
        rw [List.mem_cons]
        left
        simpa [hm] using h
    · right
      exact List.mem_cons_of_mem y h

theorem excessLookup_nonneg (dex : List (Int × Option ℚ))
    (hd : ∀ q ∈ dex, ∀ x, q.2 = some x → 0 ≤ x) (d : Int) :
    0 ≤ excessLookup dex d := by
  unfold excessLookup
  cases hf : dex.find? (fun p => p.1 == d) with
  | none => exact le_rfl
  | some p =>
    have hp := List.mem_of_find?_eq_some hf
    show (0 : ℚ) ≤ p.2.getD 0
    cases hq : p.2 with
    | none => simp [hq]
    | some x => simpa using hd p hp x hq

theorem seriesLookup_none_iff (l : List (Int × ℚ)) (d : Int) :
    seriesLookup l d = none ↔ ∀ p ∈ l, p.1 ≠ d := by
  unfold seriesLookup
  rw [Option.map_eq_none', List.find?_eq_none]
  simp

theorem excessLookup_eq_zero (dex : List (Int × Option ℚ)) (d : Int)
    (h : ∀ q ∈ dex, q.1 ≠ d) : excessLookup dex d = 0 := by
  unfold excessLookup
  have hf : dex.find? (fun p => p.1 == d) = none := by
    apply List.find?_eq_none.mpr
    intro q hq
    simpa using h q hq
  rw [hf]

/-- Any excess table coming out of the method dispatch has non-negative
(present) entries, and its day column comes from one of the two daily
series. -/
theorem methodExcess_props (monthOf : Int → Nat)
    (daily_tmean daily_tmax : List (Int × ℚ)) (thr : Thresholds)
    (dex : List (Int × Option ℚ))
    (hD : methodExcess monthOf daily_tmean daily_tmax thr
      = Except.ok dex) :
    (∀ q ∈ dex, ∀ x, q.2 = some x → 0 ≤ x) ∧
    (∀ q ∈ dex, ∃ p, (p ∈ daily_tmean ∨ p ∈ daily_tmax) ∧ q.1 = p.1) := by
  unfold methodExcess at hD
  by_cases hM : thr.method = "INMET"
  · rw [if_pos hM] at hD
    cases hn : thr.normals_m with
    | none =>
      rw [hn] at hD
      exact absurd hD (by simp)
    | some nm =>
      rw [hn] at hD
      dsimp only at hD
      unfold dailyExcessInmet at hD
      by_cases hc : candidateCols.any (fun c => nm.cols.contains c) = true
      · rw [if_pos hc] at hD
        simp only [Except.ok.injEq] at hD
        constructor
        · intro q hq x hx
          rw [← hD] at hq
          obtain ⟨p, hp, hpq⟩ := List.mem_map.mp hq
          rw [← hpq] at hx
          simp only [Option.map_eq_some'] at hx
          obtain ⟨nv, -, hnv⟩ := hx
          rw [← hnv]
          exact le_max_right _ 0
        · intro q hq
          rw [← hD] at hq
          obtain ⟨p, hp, hpq⟩ := List.mem_map.mp hq
          exact ⟨p, Or.inr hp, by rw [← hpq]⟩
      · rw [if_neg hc] at hD
        exact absurd hD (by simp)
  · rw [if_neg hM] at hD
    by_cases hO : thr.method = "Ouzeau"
    · rw [if_pos hO] at hD
      cases hs : thr.sdeb_c with
      | none =>
        rw [hs] at hD
        exact absurd hD (by simp)
      | some sdeb =>
        rw [hs] at hD
        dsimp only at hD
        simp only [Except.ok.injEq] at hD
        unfold dailyExcessOuzeau at hD
        constructor
        · intro q hq x hx
          rw [← hD] at hq
          obtain ⟨p, hp, hpq⟩ := List.mem_map.mp hq
          rw [← hpq] at hx
          simp only [Option.some.injEq] at hx
          rw [← hx]
          exact le_max_right _ 0
        · intro q hq
          rw [← hD] at hq
          obtain ⟨p, hp, hpq⟩ := List.mem_map.mp hq
          exact ⟨p, Or.inl hp, by rw [← hpq]⟩
    · rw [if_neg hO] at hD
      exact absurd hD (by simp)

/-- C8 counterexample: an Ouzeau run over a single event day whose only
observed daily maximum is -3 °C.  The computed intensity is -3 < 0: the
source takes a plain max of the observed values, so `intensity_c ≥ 0`
fails when every observed value in the span is negative. -/
theorem C8_counterexample :
    compute_event_metrics (fun _ => 1) [⟨0, 0⟩] [] [(0, -3)]
        ⟨"Ouzeau", none, 5, some 20⟩
      = Except.ok [⟨0, 0, 1, -3, 0⟩] ∧ (-3 : ℚ) < 0 := by
  constructor
  · norm_num [compute_event_metrics, methodExcess, dailyExcessOuzeau,
      intensityOf, severityOf, daysRange, seriesLookup, excessLookup,
      Except.map, List.filterMap, List.find?, List.range_succ]
    rfl
  · norm_num

/-- C8 (amended): for every accepted call, each event row has
`severity_cday ≥ 0`; days of the span with no data are excluded from the
intensity maximum (intensity is 0 when no span day has data, and any
observed span value is ≤ intensity, which is itself 0 or an observed span
value); and an event whose span lies fully outside both daily series gets
intensity 0 and severity 0, not a failure.  Intensity itself can be
negative (exactly when all observed span values are negative), which is
the one part of the original claim that fails. -/
theorem C8_metrics_sign (monthOf : Int → Nat) (events : List MEvent)
    (daily_tmean daily_tmax : List (Int × ℚ)) (thr : Thresholds)
    (out : List MetricsRow)
    (hok : compute_event_metrics monthOf events daily_tmean daily_tmax thr
      = Except.ok out) :
    ∀ row ∈ out,
      0 ≤ row.severity ∧
      ((∀ d ∈ daysRange row.start row.end_,
          seriesLookup daily_tmax d = none) → row.intensity = 0) ∧
      (∀ d ∈ daysRange row.start row.end_, ∀ v,
        seriesLookup daily_tmax d = some v → v ≤ row.intensity) ∧
      (row.intensity = 0 ∨
        ∃ d ∈ daysRange row.start row.end_,
          seriesLookup daily_tmax d = some row.intensity) ∧
      ((∀ d ∈ daysRange row.start row.end_,
          seriesLookup daily_tmean d = none ∧
          seriesLookup daily_tmax d = none) →
        row.intensity = 0 ∧ row.severity = 0) := by
  unfold compute_event_metrics at hok
  cases hE : methodExcess monthOf daily_tmean daily_tmax thr with
  | error e => rw [hE] at hok; exact absurd hok (by simp [Except.map])
  | ok dex =>
    rw [hE] at hok
    simp only [Except.map, Except.ok.injEq] at hok
    obtain ⟨hnonneg, hkeys⟩ :=
      methodExcess_props monthOf daily_tmean daily_tmax thr dex hE
    intro row hrow
    rw [← hok] at hrow
    obtain ⟨ev, hev, hfeq⟩ := List.mem_map.mp hrow
    subst hfeq
    dsimp only
    refine ⟨?_, ?_, ?_, ?_, ?_⟩
    · -- severity is non-negative
      unfold severityOf
      apply List.sum_nonneg
      intro x hx
      obtain ⟨d, -, hdx⟩ := List.mem_map.mp hx
      rw [← hdx]
      exact excessLookup_nonneg dex hnonneg d
    · -- no data in the span: intensity falls back to 0
      intro hnone
      unfold intensityOf
      have hnil : (daysRange ev.start ev.end_).filterMap
          (seriesLookup daily_tmax) = [] := by
        apply List.filterMap_eq_nil_iff.mpr
        intro d hd
        exact hnone d hd
      rw [hnil]
    · -- every observed span value is bounded by the intensity
      intro d hd v hv
      unfold intensityOf
      cases hvals : (daysRange ev.start ev.end_).filterMap
          (seriesLookup daily_tmax) with
      | nil =>
        have : v ∈ (daysRange ev.start ev.end_).filterMap
            (seriesLookup daily_tmax) :=
          List.mem_filterMap.mpr ⟨d, hd, hv⟩
        rw [hvals] at this
        exact absurd this (List.not_mem_nil v)
      | cons v0 vs =>
        have hvmem : v ∈ (daysRange ev.start ev.end_).filterMap
            (seriesLookup daily_tmax) :=
          List.mem_filterMap.mpr ⟨d, hd, hv⟩
        rw [hvals] at hvmem
        rcases List.mem_cons.mp hvmem with hx | hx
        · subst hx
          exact init_le_foldl_max vs v
        · exact mem_le_foldl_max vs v0 v hx
    · -- intensity is 0 or an observed span value
      unfold intensityOf
      cases hvals : (daysRange ev.start ev.end_).filterMap
          (seriesLookup daily_tmax) with
      | nil => exact Or.inl rfl
      | cons v0 vs =>
        right
        have hmem : vs.foldl max v0 ∈ v0 :: vs := by
          rcases foldl_max_mem vs v0 with h | h
          · rw [h]; exact List.mem_cons_self v0 vs
          · exact List.mem_cons_of_mem v0 h
        rw [← hvals] at hmem
        obtain ⟨d, hd, hdv⟩ := List.mem_filterMap.mp hmem
        exact ⟨d, hd, hdv⟩
    · -- span fully outside both series: intensity 0 and severity 0
      intro hnone
      constructor
      · unfold intensityOf
        have hnil : (daysRange ev.start ev.end_).filterMap
            (seriesLookup daily_tmax) = [] := by
          apply List.filterMap_eq_nil_iff.mpr
          intro d hd
          exact (hnone d hd).2
        rw [hnil]
      · unfold severityOf
        apply List.sum_eq_zero
        intro x hx
        obtain ⟨d, hd, hdx⟩ := List.mem_map.mp hx
        rw [← hdx]
        apply excessLookup_eq_zero
        intro q hq
        obtain ⟨p, hp, hqp⟩ := hkeys q hq
        rcases hp with hp | hp
        · intro hqd
          have hnone' := (hnone d hd).1
          rw [seriesLookup_none_iff] at hnone'
          exact hnone' p hp (by rw [← hqp]; exact hqd)
        · intro hqd
          have hnone' := (hnone d hd).2
          rw [seriesLookup_none_iff] at hnone'
          exact hnone' p hp (by rw [← hqp]; exact hqd)

/-- Closed witness for `C8_metrics_sign`: one event over day 0 with both
daily series empty; the accepted output row carries intensity 0 and
severity 0. -/
theorem C8_metrics_sign_witness :
    0 ≤ (⟨0, 0, 1, 0, 0⟩ : MetricsRow).severity ∧
    ((∀ d ∈ daysRange (⟨0, 0, 1, 0, 0⟩ : MetricsRow).start
        (⟨0, 0, 1, 0, 0⟩ : MetricsRow).end_,
        seriesLookup [] d = none) →
      (⟨0, 0, 1, 0, 0⟩ : MetricsRow).intensity = 0) ∧
    (∀ d ∈ daysRange (⟨0, 0, 1, 0, 0⟩ : MetricsRow).start
        (⟨0, 0, 1, 0, 0⟩ : MetricsRow).end_, ∀ v,
      seriesLookup [] d = some v →
        v ≤ (⟨0, 0, 1, 0, 0⟩ : MetricsRow).intensity) ∧
    ((⟨0, 0, 1, 0, 0⟩ : MetricsRow).intensity = 0 ∨
      ∃ d ∈ daysRange (⟨0, 0, 1, 0, 0⟩ : MetricsRow).start
        (⟨0, 0, 1, 0, 0⟩ : MetricsRow).end_,
        seriesLookup [] d = some (⟨0, 0, 1, 0, 0⟩ : MetricsRow).intensity) ∧
    ((∀ d ∈ daysRange (⟨0, 0, 1, 0, 0⟩ : MetricsRow).start
        (⟨0, 0, 1, 0, 0⟩ : MetricsRow).end_,
        seriesLookup [] d = none ∧ seriesLookup [] d = none) →
      (⟨0, 0, 1, 0, 0⟩ : MetricsRow).intensity = 0 ∧
        (⟨0, 0, 1, 0, 0⟩ : MetricsRow).severity = 0) :=
  C8_metrics_sign (fun _ => 1) [⟨0, 0⟩] [] [] ⟨"Ouzeau", none, 5, some 20⟩
    [⟨0, 0, 1, 0, 0⟩]
    (by simp [compute_event_metrics, methodExcess, dailyExcessOuzeau,
      intensityOf, severityOf, daysRange, seriesLookup, excessLookup,
      Except.map, List.filterMap, List.find?, List.range_succ])
    ⟨0, 0, 1, 0, 0⟩ (List.mem_singleton_self _)

theorem mem_daysRange (s e d : Int) : d ∈ daysRange s e ↔ s ≤ d ∧ d ≤ e := by
  unfold daysRange
  constructor
  · intro hd
    obtain ⟨k, hk, hkd⟩ := List.mem_map.mp hd
    have hk' := List.mem_range.mp hk
    omega
  · intro ⟨h1, h2⟩
    apply List.mem_map.mpr
    exact ⟨(d - s).toNat, List.mem_range.mpr (by omega), by omega⟩

theorem daysRange_nodup (s e : Int) : (daysRange s e).Nodup := by
  unfold daysRange
  refine List.Nodup.map ?_ (List.nodup_range _)
  intro k1 k2 h
  have h' : s + (k1 : Int) = s + (k2 : Int) := h
  omega

theorem filter_flatMap {α β : Type} (l : List α) (f : α → List β)
    (p : β → Bool) :
    (l.flatMap f).filter p = l.flatMap (fun a => (f a).filter p) := by
  induction l with
  | nil => rfl
  | cons x xs ih => simp [List.flatMap_cons, List.filter_append, ih]

theorem flatMap_if {α β : Type} (l : List α) (p : α → Bool) (g : α → β) :
    l.flatMap (fun a => if p a then [g a] else [])
      = (l.filter p).map g := by
  induction l with
  | nil => rfl
  | cons x xs ih =>
    by_cases hx : p x
    · simp [List.flatMap_cons, hx, ih, List.filter_cons]
    · simp [List.flatMap_cons, hx, ih, List.filter_cons]

theorem nodup_filter_beq {α : Type} [DecidableEq α] :
    ∀ (l : List α), l.Nodup → ∀ a : α,
      l.filter (fun x => x == a) = if a ∈ l then [a] else [] := by
  intro l
  induction l with
  | nil => intro _ a; simp
  | cons x xs ih =>
    intro hnd a
    obtain ⟨hx, hxs⟩ := List.nodup_cons.mp hnd
    by_cases hxa : x = a
    · subst hxa
      rw [List.filter_cons]
      simp only [beq_self_eq_true, if_true]
      rw [ih hxs x, if_neg hx, if_pos (List.mem_cons_self x xs)]
    · rw [List.filter_cons]
      have : (x == a) = false := beq_eq_false_iff_ne.mpr hxa
      rw [this]
      simp only [Bool.false_eq_true, if_false]
      rw [ih hxs a]
      by_cases ha : a ∈ xs
      · rw [if_pos ha, if_pos (List.mem_cons_of_mem x ha)]
      · rw [if_neg ha, if_neg (by
          intro hmem
          rcases List.mem_cons.mp hmem with h | h
          · exact hxa h.symm
          · exact ha h)]

/-- Filtering the mapper by a day keeps exactly one row per covering
event, in event order. -/
theorem pmapper_filter (evs : List PEvent) (D : Int) :
    (pmapper evs).filter (fun q => q.1 == D)
      = (evs.filter (fun e => coversB e D)).map (fun e => (D, valsOf e)) := by
  rw [pmapper, filter_flatMap, ← flatMap_if evs (fun e => coversB e D)
    (fun e => (D, valsOf e))]
  apply congrArg
  funext e
  rw [List.filter_map]
  have hcomp : ((fun q : Int × PVals => q.1 == D) ∘ (fun d => (d, valsOf e)))
      = fun d => d == D := rfl
  rw [hcomp, nodup_filter_beq _ (daysRange_nodup _ _) D]
  by_cases hD : D ∈ daysRange e.start.1 e.end_.1
  · rw [if_pos hD, if_pos (by
      have := (mem_daysRange _ _ _).mp hD
      unfold coversB
      simp [this.1, this.2])]
    rfl
  · rw [if_neg hD, if_neg (by
      intro hc
      apply hD
      apply (mem_daysRange _ _ _).mpr
      unfold coversB at hc
      simp only [Bool.and_eq_true, decide_eq_true_eq] at hc
      exact hc)]
    rfl

/-- The left-merge block of one timeline row, in terms of the covering
events. -/
theorem expandRow_eq (evs : List PEvent) (t : Int × Int) :
    expandRow evs t
      = if evs.filter (fun e => coversB e t.1) = [] then [(t, none)]
        else (evs.filter (fun e => coversB e t.1)).map
          (fun e => (t, some (valsOf e))) := by
  unfold expandRow
  rw [pmapper_filter]
  cases hcs : evs.filter (fun e => coversB e t.1) with
  | nil => simp
  | cons c cs =>
    simp only [List.map_cons, if_neg (List.cons_ne_nil c cs)]
    congr 1
    rw [List.map_map]
    rfl

theorem expandRow_fst (evs : List PEvent) (t : Int × Int) :
    ∀ row ∈ expandRow evs t, row.1 = t := by
  intro row hrow
  rw [expandRow_eq] at hrow
  by_cases h : evs.filter (fun e => coversB e t.1) = []
  · rw [if_pos h] at hrow
    simp only [List.mem_singleton] at hrow
    rw [hrow]
  · rw [if_neg h] at hrow
    obtain ⟨e, -, he⟩ := List.mem_map.mp hrow
    rw [← he]

theorem expandRow_length_pos (evs : List PEvent) (t : Int × Int) :
    1 ≤ (expandRow evs t).length := by
  rw [expandRow_eq]
  by_cases h : evs.filter (fun e => coversB e t.1) = []
  · rw [if_pos h]
    simp
  · rw [if_neg h]
    rw [List.length_map]
    exact List.length_pos.mpr h

theorem flatMap_expandRow_length (evs : List PEvent) :
    ∀ timeline : List (Int × Int),
      timeline.length ≤ (timeline.flatMap (expandRow evs)).length := by
  intro timeline
  induction timeline with
  | nil => simp
  | cons t ts ih =>
    rw [List.flatMap_cons, List.length_append, List.length_cons]
    have := expandRow_length_pos evs t
    omega

/-- C9: the projector returns the upper-cased prefix, and for each
timeline timestamp: if no event covers its day, every output row at that
timestamp carries null projected columns (and such a row exists); if
exactly one event covers its day, every output row at that timestamp
carries exactly that event's columns (and such a row exists).  Null and
zero are distinct values of the `Option` column group, so "no event" is
never encoded as 0. -/
theorem C9_projection (evs : List PEvent) (timeline : List (Int × Int))
    (label : String) :
    (expand_event_metrics_to_timeseries evs timeline label).1
      = label.toUpper ++ "_" ∧
    ∀ t ∈ timeline,
      ((∀ e ∈ evs, coversB e t.1 = false) →
        ((t, none) ∈ (expand_event_metrics_to_timeseries evs timeline label).2 ∧
          ∀ row ∈ (expand_event_metrics_to_timeseries evs timeline label).2,
            row.1 = t → row.2 = none)) ∧
      (∀ ev, evs.filter (fun e => coversB e t.1) = [ev] →
        ((t, some (valsOf ev))
            ∈ (expand_event_metrics_to_timeseries evs timeline label).2 ∧
          ∀ row ∈ (expand_event_metrics_to_timeseries evs timeline label).2,
            row.1 = t → row.2 = some (valsOf ev))) := by
  refine ⟨rfl, ?_⟩
  intro t ht
  constructor
  · intro hunc
    have hfil : evs.filter (fun e => coversB e t.1) = [] := by
      apply List.filter_eq_nil_iff.mpr
      intro e he
      rw [hunc e he]
      exact Bool.false_ne_true
    have hblock : expandRow evs t = [(t, none)] := by
      rw [expandRow_eq, if_pos hfil]
    constructor
    · apply List.mem_flatMap.mpr
      exact ⟨t, ht, by rw [hblock]; exact List.mem_singleton_self _⟩
    · intro row hrow hfst
      obtain ⟨t', ht', hrow'⟩ := List.mem_flatMap.mp hrow
      have : t' = t := by rw [← expandRow_fst evs t' row hrow', hfst]
      subst this
      rw [hblock] at hrow'
      simp only [List.mem_singleton] at hrow'
      rw [hrow']
  · intro ev hfil
    have hblock : expandRow evs t = [(t, some (valsOf ev))] := by
      rw [expandRow_eq, if_neg (by rw [hfil]; exact List.cons_ne_nil ev []),
        hfil]
      rfl
    constructor
    · apply List.mem_flatMap.mpr
      exact ⟨t, ht, by rw [hblock]; exact List.mem_singleton_self _⟩
    · intro row hrow hfst
      obtain ⟨t', ht', hrow'⟩ := List.mem_flatMap.mp hrow
      have : t' = t := by rw [← expandRow_fst evs t' row hrow', hfst]
      subst this
      rw [hblock] at hrow'
      simp only [List.mem_singleton] at hrow'
      rw [hrow']

/-- Closed witness for `C9_projection`. -/
theorem C9_projection_witness :
    (expand_event_metrics_to_timeseries [] [(0, 0)] "ouz").1
      = "ouz".toUpper ++ "_" ∧
    ∀ t ∈ [((0 : Int), (0 : Int))],
      ((∀ e ∈ ([] : List PEvent), coversB e t.1 = false) →
        ((t, none) ∈ (expand_event_metrics_to_timeseries [] [(0, 0)] "ouz").2 ∧
          ∀ row ∈ (expand_event_metrics_to_timeseries [] [(0, 0)] "ouz").2,
            row.1 = t → row.2 = none)) ∧
      (∀ ev, List.filter (fun e => coversB e t.1) ([] : List PEvent) = [ev] →
        ((t, some (valsOf ev))
            ∈ (expand_event_metrics_to_timeseries [] [(0, 0)] "ouz").2 ∧
          ∀ row ∈ (expand_event_metrics_to_timeseries [] [(0, 0)] "ouz").2,
            row.1 = t → row.2 = some (valsOf ev))) :=
  C9_projection [] [(0, 0)] "ouz"

/-- C10: the left merge duplicates a timeline timestamp once per covering
mapper row, so with two events covering a common day the output has
strictly more rows than the input timeline; every covering event's
columns appear (none "wins"), the function is total (no error path), and
on overlap-free input the output rows are exactly the input timestamps in
order. -/
theorem C10_overlap_semantics (evs : List PEvent)
    (timeline : List (Int × Int)) (label : String) :
    ((∀ t ∈ timeline, (evs.filter (fun e => coversB e t.1)).length ≤ 1) →
      (expand_event_metrics_to_timeseries evs timeline label).2.map Prod.fst
        = timeline) ∧
    (∀ t ∈ timeline, 2 ≤ (evs.filter (fun e => coversB e t.1)).length →
      timeline.length
        < (expand_event_metrics_to_timeseries evs timeline label).2.length) ∧
    (∀ t ∈ timeline, ∀ e ∈ evs, coversB e t.1 = true →
      (t, some (valsOf e))
        ∈ (expand_event_metrics_to_timeseries evs timeline label).2) ∧
    timeline.length
      ≤ (expand_event_metrics_to_timeseries evs timeline label).2.length := by
  refine ⟨?_, ?_, ?_, flatMap_expandRow_length evs timeline⟩
  · intro hfree
    unfold expand_event_metrics_to_timeseries
    induction timeline with
    | nil => rfl
    | cons t ts ih =>
      rw [List.flatMap_cons, List.map_append]
      have ht := hfree t (List.mem_cons_self t ts)
      have hblock : ∃ o, expandRow evs t = [(t, o)] := by
        rw [expandRow_eq]
        cases hcs : evs.filter (fun e => coversB e t.1) with
        | nil => exact ⟨none, by rw [if_pos rfl]⟩
        | cons c cs =>
          rw [hcs] at ht
          have : cs = [] := by
            simp only [List.length_cons] at ht
            exact List.length_eq_zero.mp (by omega)
          subst this
          exact ⟨some (valsOf c), by
            rw [if_neg (List.cons_ne_nil c [])]
            rfl⟩
      obtain ⟨o, ho⟩ := hblock
      rw [ho]
      have := ih (fun t' ht' => hfree t' (List.mem_cons_of_mem t ht'))
      simp only [List.map_cons, List.map_nil, List.singleton_append]
      rw [this]
  · intro t ht h2
    unfold expand_event_metrics_to_timeseries
    have hsplit : ∃ l1 l2, timeline = l1 ++ t :: l2 :=
      List.append_of_mem ht
    obtain ⟨l1, l2, hsp⟩ := hsplit
    subst hsp
    rw [List.flatMap_append, List.flatMap_cons]
    rw [List.length_append, List.length_append, List.length_append,
      List.length_cons]
    have h1 := flatMap_expandRow_length evs l1
    have hl2 := flatMap_expandRow_length evs l2
    have hblock : 2 ≤ (expandRow evs t).length := by
      rw [expandRow_eq]
      have hne : evs.filter (fun e => coversB e t.1) ≠ [] := by
        intro hnil
        rw [hnil] at h2
        simp at h2
      rw [if_neg hne, List.length_map]
      exact h2
    omega
  · intro t ht e he hc
    apply List.mem_flatMap.mpr
    refine ⟨t, ht, ?_⟩
    rw [expandRow_eq]
    have hmem : e ∈ evs.filter (fun e => coversB e t.1) :=
      List.mem_filter.mpr ⟨he, hc⟩
    have hne : evs.filter (fun e => coversB e t.1) ≠ [] := by
      intro hnil
      rw [hnil] at hmem
      exact List.not_mem_nil e hmem
    rw [if_neg hne]
    exact List.mem_map.mpr ⟨e, hmem, rfl⟩

/-- Closed witness for `C10_overlap_semantics`. -/
theorem C10_overlap_semantics_witness :
    ((∀ t ∈ [((0 : Int), (0 : Int))],
        (List.filter (fun e => coversB e t.1) ([] : List PEvent)).length ≤ 1) →
      (expand_event_metrics_to_timeseries [] [(0, 0)] "ouz").2.map Prod.fst
        = [(0, 0)]) ∧
    (∀ t ∈ [((0 : Int), (0 : Int))],
      2 ≤ (List.filter (fun e => coversB e t.1) ([] : List PEvent)).length →
      ([((0 : Int), (0 : Int))] : List (Int × Int)).length
        < (expand_event_metrics_to_timeseries [] [(0, 0)] "ouz").2.length) ∧
    (∀ t ∈ [((0 : Int), (0 : Int))], ∀ e ∈ ([] : List PEvent),
      coversB e t.1 = true →
      (t, some (valsOf e))
        ∈ (expand_event_metrics_to_timeseries [] [(0, 0)] "ouz").2) ∧
    ([((0 : Int), (0 : Int))] : List (Int × Int)).length
      ≤ (expand_event_metrics_to_timeseries [] [(0, 0)] "ouz").2.length :=
  C10_overlap_semantics [] [(0, 0)] "ouz"

theorem charVal_digitChar (d : Nat) (hd : d < 10) :
    charVal (Nat.digitChar d) = d := by
  interval_cases d <;> decide

theorem ofDigits_replicate_zero (k : Nat) :
    Nat.ofDigits 10 (List.replicate k 0) = 0 := by
  induction k with
  | zero => rfl
  | succ k ih => simp [List.replicate_succ, Nat.ofDigits_cons, ih]

theorem strVal_padChars (w n : Nat) : strVal (padChars w n) = n := by
  unfold strVal padChars digitChars
  rw [List.map_append, List.map_replicate]
  have hzero : charVal '0' = 0 := by decide
  rw [hzero, List.reverse_append, List.reverse_replicate]
  rw [List.map_reverse, List.reverse_reverse]
  have hmap : (Nat.digits 10 n).map (fun d => charVal (Nat.digitChar d))
      = Nat.digits 10 n := by
    rw [List.map_congr_left (fun d hd =>
      charVal_digitChar d (Nat.digits_lt_base (by norm_num) hd))]
    exact List.map_id _
  rw [List.map_map]
  have : (charVal ∘ Nat.digitChar) = fun d => charVal (Nat.digitChar d) := rfl
  rw [this, hmap, Nat.ofDigits_append, ofDigits_replicate_zero,
    Nat.ofDigits_digits]
  ring

theorem padChars_inj {w a b : Nat} (h : padChars w a = padChars w b) :
    a = b := by
  have := congrArg strVal h
  rwa [strVal_padChars, strVal_padChars] at this

theorem digitChars_length_le {w n : Nat} (h : n < 10 ^ w) :
    (digitChars n).length ≤ w := by
  unfold digitChars
  rw [List.length_reverse, List.length_map]
  rcases Nat.eq_zero_or_pos n with hn | hn
  · subst hn
    simp
  · rw [Nat.digits_len 10 n (by norm_num) (by omega)]
    have := Nat.log_lt_of_lt_pow (by omega : n ≠ 0) h
    omega

theorem padChars_length {w n : Nat} (h : n < 10 ^ w) :
    (padChars w n).length = w := by
  unfold padChars
  rw [List.length_append, List.length_replicate]
  have := digitChars_length_le h
  omega

theorem evLe_trans : ∀ a b c : SEvent,
    evLe a b = true → evLe b c = true → evLe a c = true := by
  intro a b c h1 h2
  simp only [evLe, decide_eq_true_eq] at h1 h2 ⊢
  exact le_trans h1 h2

theorem evLe_total : ∀ a b : SEvent, (evLe a b || evLe b a) = true := by
  intro a b
  simp only [evLe, Bool.or_eq_true, decide_eq_true_eq]
  exact le_total (evKey a) (evKey b)

theorem hw_id_data (site method : String) (e : SEvent) (q : Nat) :
    (hw_id_str site method e q).data
      = (site ++ "-" ++ method ++ "-").data
        ++ (padChars 4 e.start.y
        ++ (padChars 2 e.start.m
        ++ (padChars 2 e.start.d
        ++ ('-' :: padChars 3 q)))) := by
  simp only [hw_id_str, String.data_append, List.append_assoc]
  rfl

/-- Identifier components are recoverable: with in-range date fields,
equal identifier strings force equal (year, month, day, seq). -/
theorem hw_id_str_inj (site method : String) (e1 e2 : SEvent)
    (q1 q2 : Nat)
    (h1y : e1.start.y < 10000) (h1m : e1.start.m < 100)
    (h1d : e1.start.d < 100)
    (h2y : e2.start.y < 10000) (h2m : e2.start.m < 100)
    (h2d : e2.start.d < 100)
    (h : hw_id_str site method e1 q1 = hw_id_str site method e2 q2) :
    e1.start.y = e2.start.y ∧ e1.start.m = e2.start.m ∧
    e1.start.d = e2.start.d ∧ q1 = q2 := by
  have hdata := congrArg String.data h
  rw [hw_id_data, hw_id_data] at hdata
  have h0 := List.append_cancel_left hdata
  obtain ⟨hy, h1⟩ := List.append_inj h0 (by
    rw [padChars_length (by omega : e1.start.y < 10 ^ 4),
      padChars_length (by omega : e2.start.y < 10 ^ 4)])
  obtain ⟨hm, h2⟩ := List.append_inj h1 (by
    rw [padChars_length (by omega : e1.start.m < 10 ^ 2),
      padChars_length (by omega : e2.start.m < 10 ^ 2)])
  obtain ⟨hd, h3⟩ := List.append_inj h2 (by
    rw [padChars_length (by omega : e1.start.d < 10 ^ 2),
      padChars_length (by omega : e2.start.d < 10 ^ 2)])
  have h4 := (List.cons.injEq _ _ _ _ ▸ h3).2
  exact ⟨padChars_inj hy, padChars_inj hm, padChars_inj hd,
    padChars_inj h4⟩

/-- The within-year rank strictly increases along positions of the same
start year. -/
theorem seq_count_lt (l : List SEvent) (Y : Nat) (i j : Nat) (hij : i < j)
    (hi : i < l.length)
    (hiY : (l.get ⟨i, hi⟩).start.y = Y) :
    ((l.take i).filter (fun x => x.start.y == Y)).length
      < ((l.take j).filter (fun x => x.start.y == Y)).length := by
  have hsplit : l.take j
      = l.take (i + 1) ++ (l.drop (i + 1)).take (j - (i + 1)) := by
    rw [← List.take_add]
    congr 1
    omega
  have htake1 : l.take (i + 1) = l.take i ++ [l.get ⟨i, hi⟩] := by
    rw [List.take_succ, List.getElem?_eq_getElem hi]
    rfl
  rw [hsplit, htake1, List.filter_append, List.filter_append,
    List.length_append, List.length_append]
  have hiY2 : (l[i]).start.y = Y := hiY
  have hone : (List.filter (fun x => x.start.y == Y) [l.get ⟨i, hi⟩]).length
      = 1 := by
    simp [List.filter_cons, hiY2]
  omega

theorem attach_event_id_length (es : List SEvent) (site method : String) :
    (attach_event_id es site method).length = (es.mergeSort evLe).length := by
  simp [attach_event_id, seqYear]

theorem attach_event_id_get (es : List SEvent) (site method : String)
    (k : Nat) (hk : k < (es.mergeSort evLe).length) :
    (attach_event_id es site method).get ⟨k, by
      rw [attach_event_id_length es site method]; exact hk⟩
      = ((es.mergeSort evLe).get ⟨k, hk⟩,
        hw_id_str site method ((es.mergeSort evLe).get ⟨k, hk⟩)
          (1 + (((es.mergeSort evLe).take k).filter
            (fun x => x.start.y
              == ((es.mergeSort evLe).get ⟨k, hk⟩).start.y)).length)) := by
  simp only [List.get_eq_getElem]
  unfold attach_event_id seqYear
  rw [List.getElem_map, List.getElem_map, List.getElem_enum]

/-- Two distinct positions of the ranked list cannot carry the same
identifier: same start year forces distinct within-year ranks, distinct
start years force distinct `%Y%m%d` renderings. -/
theorem ids_distinct_aux (es : List SEvent) (site method : String)
    (hy : ∀ e ∈ es, e.start.y < 10000)
    (hm : ∀ e ∈ es, e.start.m < 100)
    (hd : ∀ e ∈ es, e.start.d < 100)
    (a b : Nat) (hab : a < b) (hb : b < (es.mergeSort evLe).length)
    (heq : ((attach_event_id es site method).get ⟨a, by
        rw [attach_event_id_length es site method]; omega⟩).2
      = ((attach_event_id es site method).get ⟨b, by
        rw [attach_event_id_length es site method]; exact hb⟩).2) :
    False := by
  have ha : a < (es.mergeSort evLe).length := by omega
  have hmema : (es.mergeSort evLe).get ⟨a, ha⟩ ∈ es :=
    (List.mergeSort_perm es evLe).mem_iff.mp (List.get_mem _ _ _)
  have hmemb : (es.mergeSort evLe).get ⟨b, hb⟩ ∈ es :=
    (List.mergeSort_perm es evLe).mem_iff.mp (List.get_mem _ _ _)
  rw [attach_event_id_get es site method a ha,
    attach_event_id_get es site method b hb] at heq
  have heq' : hw_id_str site method ((es.mergeSort evLe).get ⟨a, ha⟩)
      (1 + (((es.mergeSort evLe).take a).filter
        (fun x => x.start.y
          == ((es.mergeSort evLe).get ⟨a, ha⟩).start.y)).length)
    = hw_id_str site method ((es.mergeSort evLe).get ⟨b, hb⟩)
      (1 + (((es.mergeSort evLe).take b).filter
        (fun x => x.start.y
          == ((es.mergeSort evLe).get ⟨b, hb⟩).start.y)).length) := heq
  obtain ⟨hyy, -, -, hqq⟩ := hw_id_str_inj site method _ _ _ _
    (hy _ hmema) (hm _ hmema) (hd _ hmema)
    (hy _ hmemb) (hm _ hmemb) (hd _ hmemb) heq'
  have hcount := seq_count_lt (es.mergeSort evLe)
    (((es.mergeSort evLe).get ⟨b, hb⟩).start.y) a b hab ha hyy
  rw [hyy] at hqq
  omega

/-- C7: the standardizer sorts by (start asc, end asc, peak desc) with a
stable merge sort; `attach_event_id` ranks events 1-based within their
start year in that order and builds
`{site}-{method}-{start:%Y%m%d}-{seq:03d}`; for valid dates, the
resulting identifiers are pairwise distinct within the (site, method)
pair.  Both functions are pure, so repeated runs on identical input give
identical output. -/
theorem C7_standardizer_ids (es : List SEvent) (site method : String)
    (hy : ∀ e ∈ es, e.start.y < 10000)
    (hm : ∀ e ∈ es, e.start.m < 100)
    (hd : ∀ e ∈ es, e.start.d < 100) :
    List.Pairwise (fun a b => evLe a b = true) (standardize_events es) ∧
    (standardize_events es).Perm es ∧
    (∀ c : List SEvent, c.Sublist es →
      List.Pairwise (fun a b => evLe a b = true) c →
      c.Sublist (standardize_events es)) ∧
    (attach_event_id es site method).map Prod.fst = standardize_events es ∧
    (∀ p ∈ attach_event_id es site method,
      ∃ q, 1 ≤ q ∧ p.2 = hw_id_str site method p.1 q) ∧
    ((attach_event_id es site method).map Prod.snd).Nodup := by
  refine ⟨List.sorted_mergeSort evLe_trans evLe_total es,
    List.mergeSort_perm es evLe, ?_, ?_, ?_, ?_⟩
  · intro c hsub hpair
    exact List.sublist_mergeSort evLe_trans evLe_total hpair hsub
  · unfold attach_event_id seqYear standardize_events
    rw [List.map_map, List.map_map]
    show (es.mergeSort evLe).enum.map Prod.snd = es.mergeSort evLe
    exact List.enum_map_snd _
  · intro p hp
    unfold attach_event_id at hp
    obtain ⟨x, hx, hxp⟩ := List.mem_map.mp hp
    refine ⟨x.2, ?_, ?_⟩
    · unfold seqYear at hx
      obtain ⟨z, hz, hzx⟩ := List.mem_map.mp hx
      rw [← hzx]
      omega
    · rw [← hxp]
  · rw [List.nodup_iff_injective_get]
    intro a b hab
    apply Fin.ext
    by_contra hne
    have hlen : (List.map Prod.snd (attach_event_id es site method)).length
        = (es.mergeSort evLe).length := by
      rw [List.length_map, attach_event_id_length]
    have hla : a.val < (es.mergeSort evLe).length := by
      rw [← hlen]
      exact a.isLt
    have hlb : b.val < (es.mergeSort evLe).length := by
      rw [← hlen]
      exact b.isLt
    have hab2 : ((attach_event_id es site method).get ⟨a.val, by
        rw [attach_event_id_length es site method]; exact hla⟩).2
      = ((attach_event_id es site method).get ⟨b.val, by
        rw [attach_event_id_length es site method]; exact hlb⟩).2 := by
      have h1 : (List.map Prod.snd (attach_event_id es site method)).get a
          = ((attach_event_id es site method).get ⟨a.val, by
            rw [attach_event_id_length es site method]; exact hla⟩).2 := by
        simp only [List.get_eq_getElem, List.getElem_map]
      have h2 : (List.map Prod.snd (attach_event_id es site method)).get b
          = ((attach_event_id es site method).get ⟨b.val, by
            rw [attach_event_id_length es site method]; exact hlb⟩).2 := by
        simp only [List.get_eq_getElem, List.getElem_map]
      rw [← h1, ← h2]
      exact hab
    rcases Nat.lt_or_ge a.val b.val with h | h
    · exact ids_distinct_aux es site method hy hm hd a.val b.val h hlb hab2
    · have h' : b.val < a.val := by omega
      exact ids_distinct_aux es site method hy hm hd b.val a.val h' hla
        hab2.symm

/-- Closed witness for `C7_standardizer_ids`: two events starting in the
same year. -/
theorem C7_standardizer_ids_witness :
    List.Pairwise (fun a b => evLe a b = true)
      (standardize_events [⟨⟨2020, 1, 2⟩, ⟨2020, 1, 3⟩, 30⟩,
        ⟨⟨2020, 2, 5⟩, ⟨2020, 2, 6⟩, 31⟩]) ∧
    (standardize_events [⟨⟨2020, 1, 2⟩, ⟨2020, 1, 3⟩, 30⟩,
        ⟨⟨2020, 2, 5⟩, ⟨2020, 2, 6⟩, 31⟩]).Perm
      [⟨⟨2020, 1, 2⟩, ⟨2020, 1, 3⟩, 30⟩,
        ⟨⟨2020, 2, 5⟩, ⟨2020, 2, 6⟩, 31⟩] ∧
    (∀ c : List SEvent,
      c.Sublist [⟨⟨2020, 1, 2⟩, ⟨2020, 1, 3⟩, 30⟩,
        ⟨⟨2020, 2, 5⟩, ⟨2020, 2, 6⟩, 31⟩] →
      List.Pairwise (fun a b => evLe a b = true) c →
      c.Sublist (standardize_events [⟨⟨2020, 1, 2⟩, ⟨2020, 1, 3⟩, 30⟩,
        ⟨⟨2020, 2, 5⟩, ⟨2020, 2, 6⟩, 31⟩])) ∧
    (attach_event_id [⟨⟨2020, 1, 2⟩, ⟨2020, 1, 3⟩, 30⟩,
        ⟨⟨2020, 2, 5⟩, ⟨2020, 2, 6⟩, 31⟩] "siteA" "INMET").map Prod.fst
      = standardize_events [⟨⟨2020, 1, 2⟩, ⟨2020, 1, 3⟩, 30⟩,
        ⟨⟨2020, 2, 5⟩, ⟨2020, 2, 6⟩, 31⟩] ∧
    (∀ p ∈ attach_event_id [⟨⟨2020, 1, 2⟩, ⟨2020, 1, 3⟩, 30⟩,
        ⟨⟨2020, 2, 5⟩, ⟨2020, 2, 6⟩, 31⟩] "siteA" "INMET",
      ∃ q, 1 ≤ q ∧ p.2 = hw_id_str "siteA" "INMET" p.1 q) ∧
    ((attach_event_id [⟨⟨2020, 1, 2⟩, ⟨2020, 1, 3⟩, 30⟩,
        ⟨⟨2020, 2, 5⟩, ⟨2020, 2, 6⟩, 31⟩] "siteA" "INMET").map
      Prod.snd).Nodup :=
  C7_standardizer_ids
    [⟨⟨2020, 1, 2⟩, ⟨2020, 1, 3⟩, 30⟩, ⟨⟨2020, 2, 5⟩, ⟨2020, 2, 6⟩, 31⟩]
    "siteA" "INMET"
    (by intro e he; rcases List.mem_cons.mp he with h | h
        · subst h; decide
        · simp only [List.mem_singleton] at h; subst h; decide)
    (by intro e he; rcases List.mem_cons.mp he with h | h
        · subst h; decide
        · simp only [List.mem_singleton] at h; subst h; decide)
    (by intro e he; rcases List.mem_cons.mp he with h | h
        · subst h; decide
        · simp only [List.mem_singleton] at h; subst h; decide)

end HW
